import Mathlib

/-!
Verification development for the Auto-Claude repository.

Part A embeds the worktree dependency provisioning engine
(`core.workspace.dependency_strategy`, `core.workspace.models`,
`core.workspace.setup`).  Those modules are not present in the source
tree — only their test-suite `tests/test_worktree_dependencies.py` is —
so the engine is modelled from the specification, as the doc comments of
the individual definitions record.

Part B embeds `apps/backend/runners/roadmap/competitor_analyzer.py`,
which is present in the source tree, as a pure state-passing program
over an explicit file-state model, with Python's uncaught exceptions
made visible through an `Except` monad.
-/

/-- Modelled from the spec: the closed four-variant strategy enumeration
(`core.workspace.models.DependencyStrategy`; the module is missing from
the source tree, only its tests are present). -/
inductive DependencyStrategy
  | symlink
  | recreate
  | copy
  | skip
deriving DecidableEq, Repr

/-- Modelled from the spec: one raw entry of the dependency inventory
(an item of the project index's `dependency_locations` list).  The
`service` label is informational only; an entry may carry an explicit
strategy override. -/
structure RawDependencyLocation where
  type : String
  path : String
  requirements_file : Option String := none
  package_manager : Option String := none
  service : Option String := none
  strategy_override : Option DependencyStrategy := none
deriving DecidableEq, Repr

/-- Modelled from the spec: `DependencyShareConfig`, one provisioning
unit (`core.workspace.models`, missing from the source tree). -/
structure DependencyShareConfig where
  dep_type : String
  strategy : DependencyStrategy
  source_rel_path : String
  requirements_file : Option String := none
  package_manager : Option String := none
deriving DecidableEq, Repr

/-- Character-level splitter used by `splitSegs`: cut the character list
at every `/` or `\`, collecting the current segment in `acc`. -/
def splitSegsAux : List Char → List Char → List (List Char)
  | [], acc => [acc.reverse]
  | c :: cs, acc =>
    if c == '/' || c == '\\' then
      acc.reverse :: splitSegsAux cs []
    else
      splitSegsAux cs (c :: acc)

/-- Modelled from the spec: split a path on both `/` and `\` separators
(the validator's cross-platform defense), over the path's character
list. -/
def splitSegs (p : String) : List String :=
  (splitSegsAux p.toList []).map (fun cs => String.mk cs)

/-- Modelled from the spec: the path is absolute in POSIX form (it
starts with `/`). -/
def isPosixAbsolute (p : String) : Bool :=
  match p.toList with
  | '/' :: _ => true
  | _ => false

/-- Modelled from the spec: the path is absolute in Windows form (drive
letter plus colon, or UNC-style leading backslashes). -/
def isWindowsAbsolute (p : String) : Bool :=
  match p.toList with
  | '\\' :: _ => true
  | c :: ':' :: _ => c.isAlpha
  | _ => false

/-- Modelled from the spec: some path segment, after splitting on both
separators, equals `..`. -/
def hasTraversalSeg (p : String) : Bool :=
  (splitSegs p).any (fun s => s == "..")

/-- Resolution context for the containment check: the absolute project
root (as a segment list) together with the platform's real-path
resolution function (resolving all symbolic links and relative
segments), which the spec treats as the platform primitive backing the
post-resolution containment check. -/
structure ResolveCtx where
  root : List String
  realpath : List String → List String

/-- Modelled from the spec: `PathValidator.validate` — returns `none`
when the path is absolute (POSIX or Windows) or contains a `..` segment,
and, when a project root is supplied, when the path resolved relative to
the root with symlinks fully resolved does not lie within the resolved
root; otherwise returns the path unchanged. -/
def validate_path (p : String) (ctx : Option ResolveCtx) : Option String :=
  if isPosixAbsolute p || isWindowsAbsolute p || hasTraversalSeg p then
    none
  else
    match ctx with
    | none => some p
    | some c =>
      if (c.realpath c.root).isPrefixOf (c.realpath (c.root ++ splitSegs p)) then
        some p
      else
        none

/-- Modelled from the spec: the authoritative default mapping from
dependency type to strategy. -/
def DEFAULT_STRATEGY_MAP : List (String × DependencyStrategy) :=
  [("node_modules", .symlink),
   ("venv", .symlink),
   (".venv", .symlink),
   ("vendor_php", .symlink),
   ("vendor_bundle", .symlink),
   ("cargo_target", .skip),
   ("go_modules", .skip)]

/-- Modelled from the spec: strategy lookup in the default table with
`Skip` fallback for unrecognized dependency types. -/
def defaultStrategyFor (t : String) : DependencyStrategy :=
  match DEFAULT_STRATEGY_MAP.find? (fun e => e.1 == t) with
  | some e => e.2
  | none => .skip

/-- Modelled from the spec: validate one raw inventory entry into a
config.  An invalid source path drops the entry (`none`); an invalid
`requirements_file` only nulls that field; the strategy comes from the
entry's explicit override when present, else from the default table. -/
def resolveEntry (ctx : Option ResolveCtx) (e : RawDependencyLocation) :
    Option DependencyShareConfig :=
  (validate_path e.path ctx).map (fun p =>
    { dep_type := e.type
      strategy := e.strategy_override.getD (defaultStrategyFor e.type)
      source_rel_path := p
      requirements_file := e.requirements_file.bind (fun r => validate_path r ctx)
      package_manager := e.package_manager })

/-- Modelled from the spec: the raw project index, reduced to the only
key the provisioning engine reads. -/
structure ProjectIndex where
  dependency_locations : Option (List RawDependencyLocation)

/-- Modelled from the spec: the fixed fallback config list (root
`node_modules` plus the conventional frontend location) used when no
richer inventory is available. -/
def FALLBACK_CONFIGS : List DependencyShareConfig :=
  [{ dep_type := "node_modules", strategy := .symlink,
     source_rel_path := "node_modules" },
   { dep_type := "node_modules", strategy := .symlink,
     source_rel_path := "apps/frontend/node_modules" }]

/-- Recursive worker for `dedupByPath`: drop every config whose path was
already seen. -/
def dedupByPathAux (seen : List String) :
    List DependencyShareConfig → List DependencyShareConfig
  | [] => []
  | c :: rest =>
    if seen.contains c.source_rel_path then
      dedupByPathAux seen rest
    else
      c :: dedupByPathAux (c.source_rel_path :: seen) rest

/-- Modelled from the spec: deduplicate configs by final validated
`source_rel_path`, preserving the first-seen entry's fields, in stable
input order. -/
def dedupByPath (l : List DependencyShareConfig) : List DependencyShareConfig :=
  dedupByPathAux [] l

/-- Modelled from the spec: `get_dependency_configs` — return the fixed
fallback list when the inventory or its dependency-location list is
absent or empty; otherwise validate, strategy-tag and deduplicate the
entries, in stable input order. -/
def get_dependency_configs (project_index : Option ProjectIndex)
    (project_dir : Option ResolveCtx := none) : List DependencyShareConfig :=
  match project_index with
  | none => FALLBACK_CONFIGS
  | some idx =>
    match idx.dependency_locations with
    | none => FALLBACK_CONFIGS
    | some locs =>
      if locs.isEmpty then FALLBACK_CONFIGS
      else dedupByPath (locs.filterMap (resolveEntry project_dir))

example :
    get_dependency_configs
      (some ⟨some [{ type := "node_modules", path := "../../etc/passwd" },
                   { type := "node_modules", path := "safe/node_modules" }]⟩)
      none =
    [{ dep_type := "node_modules", strategy := .symlink,
       source_rel_path := "safe/node_modules" }] := by
  decide

example :
    get_dependency_configs
      (some ⟨some [{ type := "node_modules", path := "node_modules", service := some "frontend" },
                   { type := "node_modules", path := "node_modules", service := some "storybook" }]⟩)
      none =
    [{ dep_type := "node_modules", strategy := .symlink,
       source_rel_path := "node_modules" }] := by
  decide

example : get_dependency_configs none none = FALLBACK_CONFIGS := rfl

example :
    get_dependency_configs
      (some ⟨some [{ type := "unknown_ecosystem", path := "deps/" }]⟩) none =
    [{ dep_type := "unknown_ecosystem", strategy := .skip,
       source_rel_path := "deps/" }] := by
  decide

example :
    get_dependency_configs
      (some ⟨some [{ type := "venv", path := ".venv",
                     requirements_file := some "../../etc/passwd" }]⟩) none =
    [{ dep_type := "venv", strategy := .symlink, source_rel_path := ".venv",
       requirements_file := none }] := by
  decide

/-! Structural lemmas about `dedupByPathAux`. -/

theorem dedupByPathAux_sublist (seen : List String)
    (l : List DependencyShareConfig) :
    List.Sublist (dedupByPathAux seen l) l := by
  induction l generalizing seen with
  | nil => simp [dedupByPathAux]
  | cons c rest ih =>
    simp only [dedupByPathAux]
    split
    · exact (ih seen).cons c
    · exact (ih _).cons₂ c

theorem mem_of_mem_dedupByPath {l : List DependencyShareConfig}
    {c : DependencyShareConfig} (h : c ∈ dedupByPath l) : c ∈ l :=
  (dedupByPathAux_sublist [] l).subset h

theorem dedupByPathAux_covers {l : List DependencyShareConfig}
    {c : DependencyShareConfig} (seen : List String) (hc : c ∈ l)
    (hseen : seen.contains c.source_rel_path = false) :
    ∃ c2 ∈ dedupByPathAux seen l, c2.source_rel_path = c.source_rel_path := by
  induction l generalizing seen with
  | nil => cases hc
  | cons d rest ih =>
    simp only [dedupByPathAux]
    rcases List.mem_cons.mp hc with rfl | hc2
    · rw [hseen]
      exact ⟨c, List.mem_cons_self _ _, rfl⟩
    · cases hd : seen.contains d.source_rel_path with
      | true =>
        simp only [if_pos rfl]
        exact ih seen hc2 hseen
      | false =>
        simp only [Bool.false_eq_true, if_neg, if_false]
        by_cases hdp : d.source_rel_path = c.source_rel_path
        · exact ⟨d, List.mem_cons_self _ _, hdp⟩
        · have hs2 : (d.source_rel_path :: seen).contains c.source_rel_path = false := by
            simp only [List.contains_cons, Bool.or_eq_false_iff]
            exact ⟨by simp [beq_eq_false_iff_ne]; exact fun h => hdp h.symm, hseen⟩
          obtain ⟨c2, hmem, hpath⟩ := ih _ hc2 hs2
          exact ⟨c2, List.mem_cons_of_mem d hmem, hpath⟩

theorem dedupByPathAux_find? (seen : List String)
    (l : List DependencyShareConfig) (p : String)
    (hp : seen.contains p = false) :
    (dedupByPathAux seen l).find? (fun x => x.source_rel_path == p) =
      l.find? (fun x => x.source_rel_path == p) := by
  induction l generalizing seen with
  | nil => rfl
  | cons d rest ih =>
    simp only [dedupByPathAux]
    by_cases hd : seen.contains d.source_rel_path = true
    · rw [if_pos hd]
      have hne : (d.source_rel_path == p) = false := by
        cases hdp : (d.source_rel_path == p) with
        | true =>
          have heq : d.source_rel_path = p := by simpa using hdp
          rw [heq] at hd
          rw [hd] at hp
          cases hp
        | false => rfl
      rw [List.find?_cons_of_neg _ (by simp [hne]), ih seen hp]
    · rw [if_neg hd]
      cases hdp : (d.source_rel_path == p) with
      | true =>
        rw [List.find?_cons_of_pos _ (by simp [hdp]),
          List.find?_cons_of_pos _ (by simp [hdp])]
      | false =>
        rw [List.find?_cons_of_neg _ (by simp [hdp]),
          List.find?_cons_of_neg _ (by simp [hdp])]
        apply ih
        simp only [List.contains_cons, Bool.or_eq_false_iff]
        constructor
        · cases hq : (p == d.source_rel_path) with
          | true =>
            have : p = d.source_rel_path := by simpa using hq
            rw [this] at hdp
            simp at hdp
          | false => rfl
        · exact hp

theorem dedupByPathAux_filter_eq_nil (seen : List String)
    (l : List DependencyShareConfig) (p : String)
    (hp : seen.contains p = true) :
    (dedupByPathAux seen l).filter (fun x => x.source_rel_path == p) = [] := by
  induction l generalizing seen with
  | nil => rfl
  | cons d rest ih =>
    simp only [dedupByPathAux]
    cases hd : seen.contains d.source_rel_path with
    | true =>
      simp only [if_pos rfl]
      exact ih seen hp
    | false =>
      simp only [Bool.false_eq_true, if_neg, if_false]
      have hdp : (d.source_rel_path == p) = false := by
        cases hdp : (d.source_rel_path == p) with
        | true =>
          have : d.source_rel_path = p := by simpa using hdp
          rw [this, hp] at hd
          cases hd
        | false => rfl
      rw [List.filter_cons_of_neg (by simp [hdp])]
      apply ih
      simp only [List.contains_cons, hp, Bool.or_true]

theorem dedupByPathAux_filter_length_le_one (seen : List String)
    (l : List DependencyShareConfig) (p : String) :
    ((dedupByPathAux seen l).filter
      (fun x => x.source_rel_path == p)).length ≤ 1 := by
  induction l generalizing seen with
  | nil => simp [dedupByPathAux]
  | cons d rest ih =>
    simp only [dedupByPathAux]
    cases hd : seen.contains d.source_rel_path with
    | true =>
      simp only [if_pos rfl]
      exact ih seen
    | false =>
      simp only [Bool.false_eq_true, if_neg, if_false]
      cases hdp : (d.source_rel_path == p) with
      | true =>
        rw [List.filter_cons_of_pos (by simp [hdp])]
        have heq : d.source_rel_path = p := by simpa using hdp
        rw [dedupByPathAux_filter_eq_nil (d.source_rel_path :: seen) rest p
          (by simp [List.contains_cons, heq])]
        simp
      | false =>
        rw [List.filter_cons_of_neg (by simp [hdp])]
        exact ih _

theorem validate_path_eq_self {q p : String} {ctx : Option ResolveCtx}
    (h : validate_path q ctx = some p) : p = q := by
  unfold validate_path at h
  split at h
  · cases h
  · cases ctx with
    | none => exact (Option.some.injEq _ _ ▸ h).symm
    | some c =>
      simp only at h
      split at h
      · exact (Option.some.injEq _ _ ▸ h).symm
      · cases h

theorem resolveEntry_path {ctx : Option ResolveCtx}
    {e : RawDependencyLocation} {cfg : DependencyShareConfig}
    (h : resolveEntry ctx e = some cfg) :
    cfg.source_rel_path = e.path ∧ validate_path e.path ctx = some e.path := by
  unfold resolveEntry at h
  cases hv : validate_path e.path ctx with
  | none => rw [hv] at h; cases h
  | some p =>
    have hp : p = e.path := validate_path_eq_self hv
    subst hp
    rw [hv] at h
    simp only [Option.map_some'] at h
    obtain rfl := Option.some.inj h
    exact ⟨rfl, rfl⟩

theorem get_configs_eq_dedup (ctx : Option ResolveCtx) (idx : ProjectIndex)
    (locs : List RawDependencyLocation)
    (hlocs : idx.dependency_locations = some locs) (hne : locs ≠ []) :
    get_dependency_configs (some idx) ctx =
      dedupByPath (locs.filterMap (resolveEntry ctx)) := by
  cases locs with
  | nil => exact absurd rfl hne
  | cons a l =>
    simp only [get_dependency_configs, hlocs, List.isEmpty_cons,
      Bool.false_eq_true, if_false]

theorem mem_get_configs {ctx : Option ResolveCtx} {idx : ProjectIndex}
    {locs : List RawDependencyLocation} {cfg : DependencyShareConfig}
    (hlocs : idx.dependency_locations = some locs) (hne : locs ≠ [])
    (h : cfg ∈ get_dependency_configs (some idx) ctx) :
    ∃ e, e ∈ locs ∧ resolveEntry ctx e = some cfg := by
  rw [get_configs_eq_dedup ctx idx locs hlocs hne] at h
  exact List.mem_filterMap.mp (mem_of_mem_dedupByPath h)

theorem excluded_of_validate_none {ctx : Option ResolveCtx}
    {idx : ProjectIndex} {locs : List RawDependencyLocation}
    (hlocs : idx.dependency_locations = some locs)
    {e : RawDependencyLocation} (he : e ∈ locs)
    (hnone : validate_path e.path ctx = none) :
    ∀ cfg ∈ get_dependency_configs (some idx) ctx,
      cfg.source_rel_path ≠ e.path := by
  intro cfg hcfg hcontra
  have hne : locs ≠ [] := by
    intro h
    rw [h] at he
    cases he
  obtain ⟨e2, he2, hr2⟩ := mem_get_configs hlocs hne hcfg
  obtain ⟨hpath, hval⟩ := resolveEntry_path hr2
  rw [hpath] at hcontra
  rw [hcontra] at hval
  rw [hnone] at hval
  cases hval

/-- C1: when a project root is supplied, an inventory entry whose path —
resolved relative to the root with symbolic links fully resolved — does
not lie within the resolved root is excluded from the config list
returned by `get_dependency_configs`, even when the path is
syntactically relative and traversal-free (the statement needs no
syntactic hypotheses at all). -/
theorem claim_c1_resolved_containment (c : ResolveCtx) (idx : ProjectIndex)
    (locs : List RawDependencyLocation) (e : RawDependencyLocation)
    (hlocs : idx.dependency_locations = some locs) (he : e ∈ locs)
    (hout : (c.realpath c.root).isPrefixOf
        (c.realpath (c.root ++ splitSegs e.path)) = false) :
    ∀ cfg ∈ get_dependency_configs (some idx) (some c),
      cfg.source_rel_path ≠ e.path := by
  apply excluded_of_validate_none hlocs he
  unfold validate_path
  split
  · rfl
  · simp only [hout, Bool.false_eq_true, if_false]

/-- Concrete input for the C1 witness: a project root whose real-path
resolution sends the syntactically clean entry `link` outside the
root. -/
def c1ctx : ResolveCtx :=
  { root := ["proj"]
    realpath := fun l => if l = ["proj", "link"] then ["outside"] else l }

/-- Concrete inventory for the C1 witness. -/
def c1locs : List RawDependencyLocation :=
  [{ type := "node_modules", path := "link" },
   { type := "node_modules", path := "ok" }]

theorem claim_c1_witness :
    (get_dependency_configs (some ⟨some c1locs⟩) (some c1ctx)).all
      (fun cfg => cfg.source_rel_path != "link") = true := by
  apply List.all_eq_true.mpr
  intro cfg hmem
  have h := claim_c1_resolved_containment c1ctx ⟨some c1locs⟩ c1locs
    { type := "node_modules", path := "link" } rfl (by decide) (by decide)
    cfg hmem
  simpa using h

/-- C2: an inventory entry whose path contains a `..` segment (after
splitting on `/` and `\`) or is absolute in POSIX or Windows form is
excluded from the returned config list, while every entry whose path
validates keeps a config for its path in the list. -/
theorem claim_c2_traversal_absolute_rejected (ctx : Option ResolveCtx)
    (idx : ProjectIndex) (locs : List RawDependencyLocation)
    (e : RawDependencyLocation) (hlocs : idx.dependency_locations = some locs)
    (he : e ∈ locs)
    (hbad : hasTraversalSeg e.path = true ∨ isPosixAbsolute e.path = true ∨
      isWindowsAbsolute e.path = true) :
    (∀ cfg ∈ get_dependency_configs (some idx) ctx,
        cfg.source_rel_path ≠ e.path) ∧
    (∀ e2 ∈ locs, ∀ cfg2, resolveEntry ctx e2 = some cfg2 →
        ∃ cfg ∈ get_dependency_configs (some idx) ctx,
          cfg.source_rel_path = cfg2.source_rel_path) := by
  have hne : locs ≠ [] := by
    intro h
    rw [h] at he
    cases he
  constructor
  · apply excluded_of_validate_none hlocs he
    unfold validate_path
    rw [if_pos]
    rcases hbad with h | h | h <;> simp [h]
  · intro e2 he2 cfg2 hr2
    rw [get_configs_eq_dedup ctx idx locs hlocs hne]
    have hmem : cfg2 ∈ locs.filterMap (resolveEntry ctx) :=
      List.mem_filterMap.mpr ⟨e2, he2, hr2⟩
    exact dedupByPathAux_covers [] hmem rfl

/-- Concrete inventory for the C2 witness: one traversal entry, one
Windows-absolute entry, and one valid entry. -/
def c2locs : List RawDependencyLocation :=
  [{ type := "node_modules", path := "../../etc/passwd" },
   { type := "node_modules", path := "C:\\Windows" },
   { type := "node_modules", path := "safe/node_modules" }]

theorem claim_c2_witness :
    (get_dependency_configs (some ⟨some c2locs⟩) none).all
      (fun cfg => cfg.source_rel_path != "../../etc/passwd") = true ∧
    ∃ cfg ∈ get_dependency_configs (some ⟨some c2locs⟩) none,
      cfg.source_rel_path =
        ({ dep_type := "node_modules", strategy := .symlink,
           source_rel_path := "safe/node_modules" } :
          DependencyShareConfig).source_rel_path := by
  have h := claim_c2_traversal_absolute_rejected none ⟨some c2locs⟩ c2locs
    { type := "node_modules", path := "../../etc/passwd" } rfl (by decide)
    (Or.inl (by decide))
  constructor
  · apply List.all_eq_true.mpr
    intro cfg hmem
    simpa using h.1 cfg hmem
  · exact h.2 { type := "node_modules", path := "safe/node_modules" }
      (by decide) _ (by decide)

/-- C3: when two inventory entries validate to the same source path, the
returned list holds exactly one config for that path; the first config
in resolved input order is the one kept (the first-seen entry's fields),
and the whole returned list is a sublist of the resolved entries, hence
in stable input order. -/
theorem claim_c3_dedup_first_seen (ctx : Option ResolveCtx)
    (idx : ProjectIndex) (locs : List RawDependencyLocation)
    (e1 e2 : RawDependencyLocation) (cfg1 cfg2 : DependencyShareConfig)
    (hlocs : idx.dependency_locations = some locs)
    (h1 : e1 ∈ locs) (h2 : e2 ∈ locs)
    (hr1 : resolveEntry ctx e1 = some cfg1)
    (hr2 : resolveEntry ctx e2 = some cfg2)
    (hp : cfg1.source_rel_path = cfg2.source_rel_path) :
    ((get_dependency_configs (some idx) ctx).filter
        (fun x => x.source_rel_path == cfg1.source_rel_path)).length = 1 ∧
    (get_dependency_configs (some idx) ctx).find?
        (fun x => x.source_rel_path == cfg1.source_rel_path) =
      (locs.filterMap (resolveEntry ctx)).find?
        (fun x => x.source_rel_path == cfg1.source_rel_path) ∧
    List.Sublist (get_dependency_configs (some idx) ctx)
      (locs.filterMap (resolveEntry ctx)) := by
  have hne : locs ≠ [] := by
    intro h
    rw [h] at h1
    cases h1
  rw [get_configs_eq_dedup ctx idx locs hlocs hne]
  have hmem : cfg1 ∈ locs.filterMap (resolveEntry ctx) :=
    List.mem_filterMap.mpr ⟨e1, h1, hr1⟩
  refine ⟨?_, dedupByPathAux_find? [] _ _ rfl, dedupByPathAux_sublist [] _⟩
  obtain ⟨c2, hc2, hc2p⟩ := dedupByPathAux_covers [] hmem rfl
  have hfil : c2 ∈ (dedupByPathAux [] (locs.filterMap (resolveEntry ctx))).filter
      (fun x => x.source_rel_path == cfg1.source_rel_path) :=
    List.mem_filter.mpr ⟨hc2, by simp [hc2p]⟩
  have hlow : 1 ≤ ((dedupByPathAux [] (locs.filterMap (resolveEntry ctx))).filter
      (fun x => x.source_rel_path == cfg1.source_rel_path)).length := by
    have := List.ne_nil_of_mem hfil
    cases hfl : (dedupByPathAux [] (locs.filterMap (resolveEntry ctx))).filter
        (fun x => x.source_rel_path == cfg1.source_rel_path) with
    | nil => exact absurd hfl this
    | cons a l => simp [hfl, Nat.succ_le_succ]
  exact Nat.le_antisymm (dedupByPathAux_filter_length_le_one [] _ _) hlow

/-- Concrete inventory for the C3 witness: two entries with the same
path but different services and requirements. -/
def c3locs : List RawDependencyLocation :=
  [{ type := "node_modules", path := "node_modules",
     service := some "frontend" },
   { type := "node_modules", path := "node_modules",
     service := some "storybook",
     requirements_file := some "other.txt" }]

theorem claim_c3_witness :
    ((get_dependency_configs (some ⟨some c3locs⟩) none).filter
      (fun x => x.source_rel_path == "node_modules")).length = 1 := by
  have h := claim_c3_dedup_first_seen none ⟨some c3locs⟩ c3locs
    { type := "node_modules", path := "node_modules",
      service := some "frontend" }
    { type := "node_modules", path := "node_modules",
      service := some "storybook", requirements_file := some "other.txt" }
    { dep_type := "node_modules", strategy := .symlink,
      source_rel_path := "node_modules" }
    { dep_type := "node_modules", strategy := .symlink,
      source_rel_path := "node_modules", requirements_file := some "other.txt" }
    rfl (by decide) (by decide) (by decide) (by decide) rfl
  exact h.1

/-- C4: with an absent inventory, or an absent or empty
dependency-location list, `get_dependency_configs` returns exactly the
two fallback configs, both of dep_type `node_modules` with strategy
Symlink — root `node_modules` first, then
`apps/frontend/node_modules`. -/
theorem claim_c4_fallback (project_index : Option ProjectIndex)
    (ctx : Option ResolveCtx)
    (h : project_index = none ∨ ∃ idx, project_index = some idx ∧
      (idx.dependency_locations = none ∨ idx.dependency_locations = some [])) :
    get_dependency_configs project_index ctx =
      [{ dep_type := "node_modules", strategy := .symlink,
         source_rel_path := "node_modules" },
       { dep_type := "node_modules", strategy := .symlink,
         source_rel_path := "apps/frontend/node_modules" }] := by
  rcases h with rfl | ⟨idx, rfl, h2 | h2⟩
  · rfl
  · simp [get_dependency_configs, h2, FALLBACK_CONFIGS]
  · simp [get_dependency_configs, h2, FALLBACK_CONFIGS]

theorem claim_c4_witness :
    get_dependency_configs none none =
      [{ dep_type := "node_modules", strategy := .symlink,
         source_rel_path := "node_modules" },
       { dep_type := "node_modules", strategy := .symlink,
         source_rel_path := "apps/frontend/node_modules" }] :=
  claim_c4_fallback none none (Or.inl rfl)

/-- C8: an entry whose source path validates but whose
`requirements_file` fails validation is kept in the returned list with
the `requirements_file` field nulled (stated for the first entry of its
path, the one deduplication preserves), whereas any entry whose source
path fails validation contributes no config at all. -/
theorem claim_c8_requirements_nulled (ctx : Option ResolveCtx)
    (idx : ProjectIndex) (locs : List RawDependencyLocation)
    (e : RawDependencyLocation) (cfg : DependencyShareConfig) (r : String)
    (hlocs : idx.dependency_locations = some locs) (he : e ∈ locs)
    (hr : resolveEntry ctx e = some cfg)
    (hfirst : (locs.filterMap (resolveEntry ctx)).find?
        (fun x => x.source_rel_path == cfg.source_rel_path) = some cfg)
    (hreq : e.requirements_file = some r)
    (hbadreq : validate_path r ctx = none) :
    (cfg ∈ get_dependency_configs (some idx) ctx ∧
      cfg.requirements_file = none) ∧
    (∀ e2 ∈ locs, validate_path e2.path ctx = none →
      ∀ cfg2 ∈ get_dependency_configs (some idx) ctx,
        cfg2.source_rel_path ≠ e2.path) := by
  have hne : locs ≠ [] := by
    intro h
    rw [h] at he
    cases he
  refine ⟨⟨?_, ?_⟩, ?_⟩
  · rw [get_configs_eq_dedup ctx idx locs hlocs hne]
    unfold dedupByPath
    apply List.mem_of_find?_eq_some
      (p := fun x => x.source_rel_path == cfg.source_rel_path)
    rw [dedupByPathAux_find? [] _ _ rfl]
    exact hfirst
  · unfold resolveEntry at hr
    cases hv : validate_path e.path ctx with
    | none =>
      rw [hv] at hr
      cases hr
    | some p =>
      rw [hv] at hr
      simp only [Option.map_some'] at hr
      obtain rfl := Option.some.inj hr
      simp [hreq, hbadreq]
  · intro e2 he2 hv2
    exact excluded_of_validate_none hlocs he2 hv2

/-- Concrete inventory for the C8 witness: a venv entry with a traversal
requirements file, and an entry whose own path is absolute. -/
def c8locs : List RawDependencyLocation :=
  [{ type := "venv", path := ".venv",
     requirements_file := some "../../etc/passwd",
     package_manager := some "pip" },
   { type := "node_modules", path := "/etc" }]

theorem claim_c8_witness :
    ({ dep_type := "venv", strategy := .symlink, source_rel_path := ".venv",
       requirements_file := none, package_manager := some "pip" } :
        DependencyShareConfig) ∈
      get_dependency_configs (some ⟨some c8locs⟩) none ∧
    ({ dep_type := "venv", strategy := .symlink, source_rel_path := ".venv",
       requirements_file := none, package_manager := some "pip" } :
        DependencyShareConfig).requirements_file = none := by
  have h := claim_c8_requirements_nulled none ⟨some c8locs⟩ c8locs
    { type := "venv", path := ".venv",
      requirements_file := some "../../etc/passwd",
      package_manager := some "pip" }
    { dep_type := "venv", strategy := .symlink, source_rel_path := ".venv",
      requirements_file := none, package_manager := some "pip" }
    "../../etc/passwd" rfl (by decide) (by decide) (by decide) rfl (by decide)
  exact h.1

/-! Filesystem model for the strategy executors: a flat finite map from
absolute paths (segment lists) to nodes.  This models the environment
the executors act on; the executors themselves are modelled from the
spec since `core.workspace.setup` is absent from the source tree. -/

/-- A filesystem node: directory, regular file with contents, or
symbolic link to an absolute target path. -/
inductive FsNode
  | dir
  | file (contents : String)
  | symlink (target : List String)
deriving DecidableEq, Repr

/-- A flat filesystem: a finite association list from absolute paths to
nodes; the first binding for a path wins. -/
structure FileSystem where
  entries : List (List String × FsNode)
deriving DecidableEq, Repr

/-- Node stored at path `p`, if any. -/
def FileSystem.lookup (fs : FileSystem) (p : List String) : Option FsNode :=
  (fs.entries.find? (fun e => e.1 == p)).map (fun e => e.2)

/-- Whether anything (directory, file or symlink) exists at `p`. -/
def FileSystem.pathExists (fs : FileSystem) (p : List String) : Bool :=
  (fs.lookup p).isSome

/-- Set the node at `p`, replacing any previous binding. -/
def FileSystem.insert (fs : FileSystem) (p : List String) (n : FsNode) :
    FileSystem :=
  ⟨(p, n) :: fs.entries.filter (fun e => !(e.1 == p))⟩

/-- Remove the binding at exactly `p` (modelling `os.unlink` of a
symlink). -/
def FileSystem.removePath (fs : FileSystem) (p : List String) : FileSystem :=
  ⟨fs.entries.filter (fun e => !(e.1 == p))⟩

/-- Remove `p` and everything below it (modelling `shutil.rmtree`). -/
def FileSystem.removeTree (fs : FileSystem) (p : List String) : FileSystem :=
  ⟨fs.entries.filter (fun e => !(p.isPrefixOf e.1))⟩

/-- Create a directory at `p` when nothing exists there yet; existing
bindings are never replaced. -/
def FileSystem.ensureDir (fs : FileSystem) (p : List String) : FileSystem :=
  if fs.pathExists p then fs else fs.insert p .dir

/-- Create `p` and all of its ancestors as directories when missing
(modelling `Path.mkdir` with `parents=True, exist_ok=True`). -/
def FileSystem.mkdirAll (fs : FileSystem) (p : List String) : FileSystem :=
  p.inits.foldl
    (fun acc q => if q.isEmpty then acc else acc.ensureDir q) fs

/-- Follow a symbolic link at `p` one level, else return `p` itself. -/
def FileSystem.resolveLink (fs : FileSystem) (p : List String) : List String :=
  match fs.lookup p with
  | some (.symlink t) => t
  | _ => p

/-- Modelled from the spec: the completion-marker filename written by
the Recreate executor (`VENV_SETUP_COMPLETE_MARKER`). -/
def VENV_SETUP_COMPLETE_MARKER : String := ".setup_complete"

/-- Modelled from the spec: `VenvHealthChecker.is_healthy` — a purely
structural check for an interpreter binary at the platform-conventional
location inside the (possibly symlinked) venv; no process execution. -/
def venvIsHealthy (fs : FileSystem) (venvPath : List String) : Bool :=
  fs.pathExists (fs.resolveLink venvPath ++ ["bin", "python"])

/-- Modelled from the spec: the opaque injected external rebuild
capability used by the Recreate executor (invoking a package manager);
`none` is rebuild failure, `some fs` the filesystem after a successful
rebuild of the target directory. -/
abbrev Rebuilder : Type :=
  FileSystem → List String → DependencyShareConfig → Option FileSystem

/-- Modelled from the spec: the Recreate executor
(`_apply_recreate_strategy`): skip when the target exists and carries
the completion marker; otherwise remove an existing (incomplete) target
entirely, attempt the external rebuild, and write the marker inside the
rebuilt directory only after a successful rebuild.  Returns the new
filesystem and the `applied` flag; rebuild failure leaves the directory
absent and unmarked. -/
def apply_recreate_strategy (rebuild : Rebuilder) (fs : FileSystem)
    (project_dir worktree_dir : List String)
    (config : DependencyShareConfig) : FileSystem × Bool :=
  if fs.pathExists (worktree_dir ++ splitSegs config.source_rel_path) then
    if fs.pathExists (worktree_dir ++ splitSegs config.source_rel_path ++
        [VENV_SETUP_COMPLETE_MARKER]) then
      (fs, false)
    else
      match rebuild
          (fs.removeTree (worktree_dir ++ splitSegs config.source_rel_path))
          (worktree_dir ++ splitSegs config.source_rel_path) config with
      | some fs2 =>
        ((fs2.ensureDir (worktree_dir ++ splitSegs config.source_rel_path)).insert
          (worktree_dir ++ splitSegs config.source_rel_path ++
            [VENV_SETUP_COMPLETE_MARKER]) (.file ""), true)
      | none =>
        (fs.removeTree (worktree_dir ++ splitSegs config.source_rel_path), false)
  else
    match rebuild fs (worktree_dir ++ splitSegs config.source_rel_path) config with
    | some fs2 =>
      ((fs2.ensureDir (worktree_dir ++ splitSegs config.source_rel_path)).insert
        (worktree_dir ++ splitSegs config.source_rel_path ++
          [VENV_SETUP_COMPLETE_MARKER]) (.file ""), true)
    | none => (fs, false)

/-- Modelled from the spec: the Symlink executor
(`_apply_symlink_strategy`): create the target's missing parents, skip
when the source is missing or the target already exists (never
destructive), otherwise link the target to the absolute source path;
for venv dependency types run the health check on the fresh link and,
when it fails, remove the link and fall back to the Recreate executor.
The embedding is total, so no exception escapes. -/
def apply_symlink_strategy (rebuild : Rebuilder) (fs : FileSystem)
    (project_dir worktree_dir : List String)
    (config : DependencyShareConfig) : FileSystem × Bool :=
  if (fs.mkdirAll
      ((worktree_dir ++ splitSegs config.source_rel_path).dropLast)).pathExists
      (project_dir ++ splitSegs config.source_rel_path) then
    if (fs.mkdirAll
        ((worktree_dir ++ splitSegs config.source_rel_path).dropLast)).pathExists
        (worktree_dir ++ splitSegs config.source_rel_path) then
      (fs.mkdirAll
        ((worktree_dir ++ splitSegs config.source_rel_path).dropLast), false)
    else
      if config.dep_type == "venv" || config.dep_type == ".venv" then
        if venvIsHealthy
            ((fs.mkdirAll
              ((worktree_dir ++ splitSegs config.source_rel_path).dropLast)).insert
              (worktree_dir ++ splitSegs config.source_rel_path)
              (.symlink (project_dir ++ splitSegs config.source_rel_path)))
            (worktree_dir ++ splitSegs config.source_rel_path) then
          ((fs.mkdirAll
            ((worktree_dir ++ splitSegs config.source_rel_path).dropLast)).insert
            (worktree_dir ++ splitSegs config.source_rel_path)
            (.symlink (project_dir ++ splitSegs config.source_rel_path)), true)
        else
          apply_recreate_strategy rebuild
            (((fs.mkdirAll
              ((worktree_dir ++ splitSegs config.source_rel_path).dropLast)).insert
              (worktree_dir ++ splitSegs config.source_rel_path)
              (.symlink (project_dir ++ splitSegs config.source_rel_path))).removePath
              (worktree_dir ++ splitSegs config.source_rel_path))
            project_dir worktree_dir config
      else
        ((fs.mkdirAll
          ((worktree_dir ++ splitSegs config.source_rel_path).dropLast)).insert
          (worktree_dir ++ splitSegs config.source_rel_path)
          (.symlink (project_dir ++ splitSegs config.source_rel_path)), true)
  else
    (fs.mkdirAll
      ((worktree_dir ++ splitSegs config.source_rel_path).dropLast), false)

/-! Lookup lemmas for the filesystem model. -/

theorem find_filter_ne (l : List (List String × FsNode)) (p q : List String)
    (h : q ≠ p) :
    (l.filter (fun e => !(e.1 == p))).find? (fun e => e.1 == q) =
      l.find? (fun e => e.1 == q) := by
  induction l with
  | nil => rfl
  | cons a l ih =>
    cases ha : (a.1 == q) with
    | true =>
      have haq : a.1 = q := by simpa using ha
      have hap : (a.1 == p) = false := by
        rw [haq]
        exact beq_eq_false_iff_ne.mpr h
      rw [List.filter_cons_of_pos (by simp [hap]),
        List.find?_cons_of_pos _ (by simp [ha]),
        List.find?_cons_of_pos _ (by simp [ha])]
    | false =>
      cases hap : (a.1 == p) with
      | true =>
        rw [List.filter_cons_of_neg (by simp [hap]),
          List.find?_cons_of_neg _ (by simp [ha]), ih]
      | false =>
        rw [List.filter_cons_of_pos (by simp [hap]),
          List.find?_cons_of_neg _ (by simp [ha]),
          List.find?_cons_of_neg _ (by simp [ha]), ih]

theorem FileSystem.lookup_insert_self (fs : FileSystem) (p : List String)
    (n : FsNode) : (fs.insert p n).lookup p = some n := by
  unfold FileSystem.insert FileSystem.lookup
  rw [List.find?_cons_of_pos _ (by simp)]
  rfl

theorem FileSystem.lookup_insert_ne (fs : FileSystem) (p : List String)
    (n : FsNode) (q : List String) (h : q ≠ p) :
    (fs.insert p n).lookup q = fs.lookup q := by
  unfold FileSystem.insert FileSystem.lookup
  rw [List.find?_cons_of_neg _ (by
    simp only [beq_iff_eq]
    exact fun hh => h hh.symm)]
  rw [find_filter_ne _ _ _ h]

theorem FileSystem.lookup_removePath_self (fs : FileSystem)
    (p : List String) : (fs.removePath p).lookup p = none := by
  unfold FileSystem.removePath FileSystem.lookup
  simp only [Option.map_eq_none']
  rw [List.find?_eq_none]
  intro x hx
  have hx2 := (List.mem_filter.mp hx).2
  simp only [Bool.not_eq_eq_eq_not, Bool.not_true] at hx2
  simp [hx2]

theorem FileSystem.lookup_removePath_ne (fs : FileSystem)
    (p q : List String) (h : q ≠ p) :
    (fs.removePath p).lookup q = fs.lookup q := by
  unfold FileSystem.removePath FileSystem.lookup
  rw [find_filter_ne _ _ _ h]

theorem FileSystem.lookup_ensureDir_of_some (fs : FileSystem)
    (p q : List String) (n : FsNode) (h : fs.lookup q = some n) :
    (fs.ensureDir p).lookup q = some n := by
  unfold FileSystem.ensureDir
  split
  · exact h
  · rename_i hp
    by_cases hq : q = p
    · subst hq
      exact absurd (by simp [FileSystem.pathExists, h]) hp
    · rw [FileSystem.lookup_insert_ne fs p _ q hq]
      exact h

theorem FileSystem.ensureDir_pathExists (fs : FileSystem) (p : List String) :
    (fs.ensureDir p).pathExists p = true := by
  unfold FileSystem.ensureDir
  split
  · rename_i hp
    exact hp
  · simp [FileSystem.pathExists, FileSystem.lookup_insert_self]

theorem foldl_ensureDir_lookup_of_some (L : List (List String))
    (fs : FileSystem) {q : List String} {n : FsNode}
    (h : fs.lookup q = some n) :
    (L.foldl (fun acc r => if r.isEmpty then acc else acc.ensureDir r)
      fs).lookup q = some n := by
  induction L generalizing fs with
  | nil => exact h
  | cons a L ih =>
    simp only [List.foldl_cons]
    apply ih
    split
    · exact h
    · exact FileSystem.lookup_ensureDir_of_some _ _ _ _ h

theorem FileSystem.lookup_mkdirAll_of_some (fs : FileSystem)
    (P q : List String) (n : FsNode) (h : fs.lookup q = some n) :
    (fs.mkdirAll P).lookup q = some n :=
  foldl_ensureDir_lookup_of_some _ _ h

theorem FileSystem.pathExists_mkdirAll_of_true (fs : FileSystem)
    (P q : List String) (h : fs.pathExists q = true) :
    (fs.mkdirAll P).pathExists q = true := by
  unfold FileSystem.pathExists at h ⊢
  cases hl : fs.lookup q with
  | none =>
    rw [hl] at h
    cases h
  | some n =>
    rw [FileSystem.lookup_mkdirAll_of_some fs P q n hl]
    rfl



theorem recreate_applied_target_exists (rebuild : Rebuilder)
    (fs : FileSystem) (pd wd : List String) (cfg : DependencyShareConfig)
    (h : (apply_recreate_strategy rebuild fs pd wd cfg).2 = true) :
    (apply_recreate_strategy rebuild fs pd wd cfg).1.pathExists
      (wd ++ splitSegs cfg.source_rel_path) = true := by
  have hne : (wd ++ splitSegs cfg.source_rel_path) ≠
      wd ++ splitSegs cfg.source_rel_path ++ [VENV_SETUP_COMPLETE_MARKER] := by
    intro hh
    have hlen := congrArg List.length hh
    simp [List.length_append] at hlen
  have hkey : ∀ fs2 : FileSystem,
      ((fs2.ensureDir (wd ++ splitSegs cfg.source_rel_path)).insert
        (wd ++ splitSegs cfg.source_rel_path ++ [VENV_SETUP_COMPLETE_MARKER])
        (.file "")).pathExists (wd ++ splitSegs cfg.source_rel_path) = true := by
    intro fs2
    unfold FileSystem.pathExists
    rw [FileSystem.lookup_insert_ne _ _ _ _ hne]
    have hp := FileSystem.ensureDir_pathExists fs2
      (wd ++ splitSegs cfg.source_rel_path)
    unfold FileSystem.pathExists at hp
    exact hp
  delta apply_recreate_strategy at h ⊢
  cases hex : fs.pathExists (wd ++ splitSegs cfg.source_rel_path) with
  | true =>
    rw [if_pos hex] at h
    rw [if_pos rfl]
    cases hmark : fs.pathExists
        (wd ++ splitSegs cfg.source_rel_path ++ [VENV_SETUP_COMPLETE_MARKER]) with
    | true =>
      rw [if_pos hmark] at h
      cases h
    | false =>
      rw [if_neg (by simpa using hmark)] at h
      rw [if_neg (by simp)]
      cases hrb : rebuild (fs.removeTree (wd ++ splitSegs cfg.source_rel_path))
          (wd ++ splitSegs cfg.source_rel_path) cfg with
      | none =>
        rw [hrb] at h
        cases h
      | some fs2 => exact hkey fs2
  | false =>
    rw [if_neg (by simp [hex])] at h
    rw [if_neg (by simp)]
    cases hrb : rebuild fs (wd ++ splitSegs cfg.source_rel_path) cfg with
    | none =>
      rw [hrb] at h
      cases h
    | some fs2 => exact hkey fs2

theorem symlink_applied_target_exists (rebuild : Rebuilder)
    (fs : FileSystem) (pd wd : List String) (cfg : DependencyShareConfig)
    (h : (apply_symlink_strategy rebuild fs pd wd cfg).2 = true) :
    (apply_symlink_strategy rebuild fs pd wd cfg).1.pathExists
      (wd ++ splitSegs cfg.source_rel_path) = true := by
  delta apply_symlink_strategy at h ⊢
  cases hsrc : (fs.mkdirAll
      ((wd ++ splitSegs cfg.source_rel_path).dropLast)).pathExists
      (pd ++ splitSegs cfg.source_rel_path) with
  | false =>
    rw [if_neg (by simp [hsrc])] at h
    cases h
  | true =>
    rw [if_pos hsrc] at h
    rw [if_pos rfl]
    cases htgt : (fs.mkdirAll
        ((wd ++ splitSegs cfg.source_rel_path).dropLast)).pathExists
        (wd ++ splitSegs cfg.source_rel_path) with
    | true =>
      rw [if_pos htgt] at h
      cases h
    | false =>
      rw [if_neg (by simp [htgt])] at h
      rw [if_neg (by simp)]
      cases hty : (cfg.dep_type == "venv" || cfg.dep_type == ".venv") with
      | false =>
        rw [if_neg (by simp)]
        unfold FileSystem.pathExists
        rw [FileSystem.lookup_insert_self]
        rfl
      | true =>
        rw [if_pos hty] at h
        rw [if_pos rfl]
        cases hh : venvIsHealthy ((fs.mkdirAll
            ((wd ++ splitSegs cfg.source_rel_path).dropLast)).insert
            (wd ++ splitSegs cfg.source_rel_path)
            (.symlink (pd ++ splitSegs cfg.source_rel_path)))
            (wd ++ splitSegs cfg.source_rel_path) with
        | true =>
          rw [if_pos rfl]
          unfold FileSystem.pathExists
          rw [FileSystem.lookup_insert_self]
          rfl
        | false =>
          rw [if_neg (by simp [hh])] at h
          rw [if_neg (by simp)]
          exact recreate_applied_target_exists _ _ _ _ _ h

theorem symlink_target_exists_skip (rebuild : Rebuilder) (fs : FileSystem)
    (pd wd : List String) (cfg : DependencyShareConfig)
    (htgt : fs.pathExists (wd ++ splitSegs cfg.source_rel_path) = true) :
    apply_symlink_strategy rebuild fs pd wd cfg =
      (fs.mkdirAll ((wd ++ splitSegs cfg.source_rel_path).dropLast), false) := by
  delta apply_symlink_strategy
  have h0 : (fs.mkdirAll
      ((wd ++ splitSegs cfg.source_rel_path).dropLast)).pathExists
      (wd ++ splitSegs cfg.source_rel_path) = true :=
    FileSystem.pathExists_mkdirAll_of_true _ _ _ htgt
  cases hsrc : (fs.mkdirAll
      ((wd ++ splitSegs cfg.source_rel_path).dropLast)).pathExists
      (pd ++ splitSegs cfg.source_rel_path) with
  | false => rw [if_neg (by simp)]
  | true =>
    rw [if_pos rfl, if_pos h0]

/-- C5: when the worktree target of a Recreate invocation already
contains the completion marker `.setup_complete`, the executor returns
`applied = false` and the filesystem — hence every pre-existing file in
the target directory and its contents — is left completely unchanged (no
removal, no rebuild). -/
theorem claim_c5_recreate_marker_idempotent (rebuild : Rebuilder)
    (fs : FileSystem) (pd wd : List String) (cfg : DependencyShareConfig)
    (hdir : fs.pathExists (wd ++ splitSegs cfg.source_rel_path) = true)
    (hmark : fs.pathExists
      (wd ++ splitSegs cfg.source_rel_path ++ [VENV_SETUP_COMPLETE_MARKER]) =
      true) :
    (apply_recreate_strategy rebuild fs pd wd cfg).2 = false ∧
    ∀ q, (apply_recreate_strategy rebuild fs pd wd cfg).1.lookup q =
      fs.lookup q := by
  delta apply_recreate_strategy
  rw [if_pos hdir, if_pos hmark]
  exact ⟨rfl, fun q => rfl⟩

/-- Concrete filesystem for the C5 witness: a complete worktree venv
carrying the marker and a canary file. -/
def c5fs : FileSystem :=
  ⟨[(["wt"], .dir),
    (["wt", ".venv"], .dir),
    (["wt", ".venv", ".setup_complete"], .file ""),
    (["wt", ".venv", "canary.txt"], .file "original")]⟩

/-- Concrete config for the C5 witness. -/
def c5cfg : DependencyShareConfig :=
  { dep_type := ".venv", strategy := .recreate, source_rel_path := ".venv" }

theorem claim_c5_witness :
    (apply_recreate_strategy (fun _ _ _ => none) c5fs ["proj"] ["wt"]
      c5cfg).2 = false ∧
    (apply_recreate_strategy (fun _ _ _ => none) c5fs ["proj"] ["wt"]
      c5cfg).1.lookup ["wt", ".venv", "canary.txt"] =
      some (.file "original") := by
  have h := claim_c5_recreate_marker_idempotent (fun _ _ _ => none) c5fs
    ["proj"] ["wt"] c5cfg (by decide) (by decide)
  refine ⟨h.1, ?_⟩
  rw [h.2]
  decide

/-- C6: the Symlink executor is never destructive to pre-existing
worktree state.  First: when the target already exists (directory or
symlink), the run is recorded as not applied, the target's node is kept
unchanged (a real directory stays a real directory, never replaced by a
symlink), and every pre-existing filesystem entry survives untouched.
Second: after a first invocation that applied, a second invocation on
the same project/worktree pair removes or changes nothing (it can only
add missing parent directories), is recorded as not applied, and the
target still exists afterwards. -/
theorem claim_c6_symlink_never_destructive (rebuild : Rebuilder)
    (fs : FileSystem) (pd wd : List String) (cfg : DependencyShareConfig) :
    (∀ n, fs.lookup (wd ++ splitSegs cfg.source_rel_path) = some n →
      (apply_symlink_strategy rebuild fs pd wd cfg).2 = false ∧
      (apply_symlink_strategy rebuild fs pd wd cfg).1.lookup
        (wd ++ splitSegs cfg.source_rel_path) = some n ∧
      (∀ q m, fs.lookup q = some m →
        (apply_symlink_strategy rebuild fs pd wd cfg).1.lookup q = some m)) ∧
    ((apply_symlink_strategy rebuild fs pd wd cfg).2 = true →
      (apply_symlink_strategy rebuild
        (apply_symlink_strategy rebuild fs pd wd cfg).1 pd wd cfg).2 = false ∧
      (∀ q m,
        (apply_symlink_strategy rebuild fs pd wd cfg).1.lookup q = some m →
        (apply_symlink_strategy rebuild
          (apply_symlink_strategy rebuild fs pd wd cfg).1 pd wd
          cfg).1.lookup q = some m) ∧
      (apply_symlink_strategy rebuild
        (apply_symlink_strategy rebuild fs pd wd cfg).1 pd wd
        cfg).1.pathExists (wd ++ splitSegs cfg.source_rel_path) = true) := by
  constructor
  · intro n htgt
    have hex : fs.pathExists (wd ++ splitSegs cfg.source_rel_path) = true := by
      simp [FileSystem.pathExists, htgt]
    rw [symlink_target_exists_skip rebuild fs pd wd cfg hex]
    exact ⟨rfl, FileSystem.lookup_mkdirAll_of_some fs _ _ n htgt,
      fun q m hm => FileSystem.lookup_mkdirAll_of_some fs _ q m hm⟩
  · intro happ
    have hex2 := symlink_applied_target_exists rebuild fs pd wd cfg happ
    rw [symlink_target_exists_skip rebuild
      (apply_symlink_strategy rebuild fs pd wd cfg).1 pd wd cfg hex2]
    refine ⟨rfl, fun q m hm =>
      FileSystem.lookup_mkdirAll_of_some _ _ q m hm, ?_⟩
    exact FileSystem.pathExists_mkdirAll_of_true _ _ _ hex2

/-- Concrete filesystem for the C6 witness, first part: the worktree
target pre-exists as a real directory. -/
def c6fsPre : FileSystem :=
  ⟨[(["proj"], .dir), (["proj", "node_modules"], .dir),
    (["wt"], .dir), (["wt", "node_modules"], .dir)]⟩

/-- Concrete filesystem for the C6 witness, second part: an empty
worktree, so the first invocation applies. -/
def c6fsNew : FileSystem :=
  ⟨[(["proj"], .dir), (["proj", "node_modules"], .dir), (["wt"], .dir)]⟩

/-- Concrete config for the C6 witness. -/
def c6cfg : DependencyShareConfig :=
  { dep_type := "node_modules", strategy := .symlink,
    source_rel_path := "node_modules" }

theorem claim_c6_witness :
    ((apply_symlink_strategy (fun _ _ _ => none) c6fsPre ["proj"] ["wt"]
        c6cfg).2 = false ∧
     (apply_symlink_strategy (fun _ _ _ => none) c6fsPre ["proj"] ["wt"]
        c6cfg).1.lookup (["wt"] ++ splitSegs c6cfg.source_rel_path) =
        some .dir) ∧
    ((apply_symlink_strategy (fun _ _ _ => none)
        (apply_symlink_strategy (fun _ _ _ => none) c6fsNew ["proj"] ["wt"]
          c6cfg).1 ["proj"] ["wt"] c6cfg).2 = false ∧
     (apply_symlink_strategy (fun _ _ _ => none)
        (apply_symlink_strategy (fun _ _ _ => none) c6fsNew ["proj"] ["wt"]
          c6cfg).1 ["proj"] ["wt"] c6cfg).1.pathExists
        (["wt"] ++ splitSegs c6cfg.source_rel_path) = true) := by
  constructor
  · have h := (claim_c6_symlink_never_destructive (fun _ _ _ => none) c6fsPre
      ["proj"] ["wt"] c6cfg).1 .dir (by decide)
    exact ⟨h.1, h.2.1⟩
  · have h := (claim_c6_symlink_never_destructive (fun _ _ _ => none) c6fsNew
      ["proj"] ["wt"] c6cfg).2 (by decide)
    exact ⟨h.1, h.2.2⟩

/-- C7: for a config of dep_type `venv` or `.venv` going through the
Symlink executor with an existing source and a free target, the symlink
is created at the target, and the VenvHealthChecker's verdict on the
target decides the outcome: when the check fails the symlink is removed
(the target is empty again when Recreate starts) and the whole
invocation equals the Recreate executor run on that state; when the
check passes the fresh symlink is kept and reported applied.  The
embedding is a total function, so no exception escapes either way. -/
theorem claim_c7_venv_health_fallback (rebuild : Rebuilder)
    (fs fs0 fsLinked : FileSystem) (pd wd target source : List String)
    (cfg : DependencyShareConfig)
    (htarget : target = wd ++ splitSegs cfg.source_rel_path)
    (hsource : source = pd ++ splitSegs cfg.source_rel_path)
    (hfs0 : fs0 = fs.mkdirAll target.dropLast)
    (hlinked : fsLinked = fs0.insert target (.symlink source))
    (hvenv : cfg.dep_type = "venv" ∨ cfg.dep_type = ".venv")
    (hsrc : fs0.pathExists source = true)
    (htgt : fs0.pathExists target = false) :
    fsLinked.lookup target = some (.symlink source) ∧
    (venvIsHealthy fsLinked target = false →
      apply_symlink_strategy rebuild fs pd wd cfg =
        apply_recreate_strategy rebuild (fsLinked.removePath target) pd wd
          cfg ∧
      (fsLinked.removePath target).lookup target = none) ∧
    (venvIsHealthy fsLinked target = true →
      apply_symlink_strategy rebuild fs pd wd cfg = (fsLinked, true)) := by
  subst htarget hsource hfs0 hlinked
  have hty : (cfg.dep_type == "venv" || cfg.dep_type == ".venv") = true := by
    rcases hvenv with h | h <;> simp [h]
  refine ⟨FileSystem.lookup_insert_self _ _ _, ?_, ?_⟩
  · intro hh
    refine ⟨?_, FileSystem.lookup_removePath_self _ _⟩
    delta apply_symlink_strategy
    rw [if_pos hsrc, if_neg (by simp [htgt]), if_pos hty,
      if_neg (by simp [hh])]
  · intro hh
    delta apply_symlink_strategy
    rw [if_pos hsrc, if_neg (by simp [htgt]), if_pos hty, if_pos hh]

/-- Concrete filesystem for the C7 witness: the source venv exists but
has no interpreter binary, so the health check on the symlinked target
fails. -/
def c7fs : FileSystem :=
  ⟨[(["proj"], .dir), (["proj", ".venv"], .dir), (["wt"], .dir)]⟩

/-- Concrete config for the C7 witness. -/
def c7cfg : DependencyShareConfig :=
  { dep_type := ".venv", strategy := .symlink, source_rel_path := ".venv" }

theorem claim_c7_witness :
    apply_symlink_strategy (fun _ _ _ => none) c7fs ["proj"] ["wt"] c7cfg =
      apply_recreate_strategy (fun _ _ _ => none)
        (((c7fs.mkdirAll (["wt", ".venv"].dropLast)).insert ["wt", ".venv"]
          (.symlink ["proj", ".venv"])).removePath ["wt", ".venv"])
        ["proj"] ["wt"] c7cfg :=
  ((claim_c7_venv_health_fallback (fun _ _ _ => none) c7fs
    (c7fs.mkdirAll (["wt", ".venv"].dropLast))
    ((c7fs.mkdirAll (["wt", ".venv"].dropLast)).insert ["wt", ".venv"]
      (.symlink ["proj", ".venv"]))
    ["proj"] ["wt"] ["wt", ".venv"] ["proj", ".venv"] c7cfg
    (by decide) (by decide) rfl rfl (Or.inr rfl) (by decide)
    (by decide)).2.1 (by decide)).1

/-! Part B: shallow embedding of
`apps/backend/runners/roadmap/competitor_analyzer.py` (present in the
source tree).  Files are modelled as parse results, the agent executor
as an injected function, and Python exceptions that the source does not
catch as `Except.error`. -/

namespace Roadmap

/-- Python exceptions relevant to the analyzer: `TypeError` (iterating
or taking `len` of a non-list), `AttributeError` (`.get` on a non-dict),
and `OSError` (opening a missing file where only JSONDecodeError is
caught). -/
inductive PyErr
  | typeError
  | attrError
  | osError
deriving DecidableEq, Repr

/-- The `pain_points` value of a competitor dict: absent, a JSON array
(only its length matters to `_validate_analysis`), or a non-array value
on which `len` raises TypeError. -/
inductive JField
  | absent
  | arr (len : Nat)
  | nonArr
deriving DecidableEq, Repr

/-- One competitor dict, reduced to the keys the analyzer reads (`id`,
`source`, `pain_points`); `tag` stands for the rest of the dict so that
distinct dicts stay distinguishable. -/
structure Competitor where
  id : Option String
  source : Option String := none
  painPoints : JField := .absent
  tag : Nat := 0
deriving DecidableEq, Repr

/-- An item of a competitors array: a JSON object, or any non-object
value (what `isinstance(c, dict)` filters out). -/
inductive JItem
  | jobj (c : Competitor)
  | jother
deriving DecidableEq, Repr

/-- The `competitors` value of a JSON document: absent, a JSON array, or
a non-array non-string value (iterating it, or taking `len`, raises
TypeError). -/
inductive CompetitorsField
  | absent
  | arr (items : List JItem)
  | nonArr
deriving DecidableEq, Repr

/-- A parsed JSON document, reduced to the only key the analyzer
branches on. -/
structure Doc where
  competitors : CompetitorsField
deriving DecidableEq, Repr

/-- State of a JSON file on disk: missing, unparseable JSON, valid JSON
whose top level is not an object (`.get` on it raises AttributeError),
or a parsed object. -/
inductive FileState
  | missing
  | badJson
  | nondict
  | obj (d : Doc)
deriving DecidableEq, Repr

/-- World state of one `CompetitorAnalyzer`: the analysis file, the
manual-competitors file, and whether the discovery file exists. -/
structure World where
  analysisFile : FileState
  manualFile : FileState
  discoveryExists : Bool
deriving DecidableEq, Repr

/-- `MAX_RETRIES` from the source. -/
def MAX_RETRIES : Nat := 3

/-- Path string of the analysis file as recorded in phase results. -/
def analysisPath : String := "competitor_analysis.json"

/-- `RoadmapPhaseResult` as constructed positionally at the analyzer's
call sites (`roadmap/models.py` is not in the source tree): phase name,
success flag, produced files, errors, retry count. -/
structure RoadmapPhaseResult where
  phase : String
  success : Bool
  files : List String
  errors : List String
  retries : Nat
deriving DecidableEq, Repr

/-- Python truthiness of `c.get("id")`: the key is present and the
string is non-empty. -/
def truthyId (c : Competitor) : Bool :=
  match c.id with
  | some s => s != ""
  | none => false

/-- The id of a competitor, defaulting to the empty string; only used
under `truthyId`. -/
def idOf (c : Competitor) : String :=
  c.id.getD ""

/-- Python `d[k] = v` on an insertion-ordered dict: replace in place
when the key exists, append otherwise. -/
def upsert (acc : List (String × Competitor)) (k : String) (v : Competitor) :
    List (String × Competitor) :=
  if acc.any (fun kv => kv.1 == k) then
    acc.map (fun kv => if kv.1 == k then (k, v) else kv)
  else
    acc ++ [(k, v)]

/-- First pass of `_get_manual_competitors`, over the manual file's
competitors: every dict with a truthy id is stored under its id. -/
def manualPass (items : List JItem) (acc : List (String × Competitor)) :
    List (String × Competitor) :=
  items.foldl (fun acc it =>
    match it with
    | .jobj c => if truthyId c then upsert acc (idOf c) c else acc
    | .jother => acc) acc

/-- Second pass of `_get_manual_competitors`, over the analysis file's
competitors: dicts with `source == "manual"`, a truthy id, and an id not
seen yet are appended. -/
def analysisPass (items : List JItem) (acc : List (String × Competitor)) :
    List (String × Competitor) :=
  items.foldl (fun acc it =>
    match it with
    | .jobj c =>
      if c.source == some "manual" && truthyId c &&
          !(acc.any (fun kv => kv.1 == idOf c)) then
        acc ++ [(idOf c, c)]
      else acc
    | .jother => acc) acc

/-- Read the competitors array of one file inside
`_get_manual_competitors`: a missing file or bad JSON is caught (the
`except (json.JSONDecodeError, OSError)` clause) and contributes
nothing; a non-object document raises AttributeError at `data.get`, and
a non-array competitors value raises TypeError at `for`, neither of
which the source catches. -/
def readCompetitorsForManual (st : FileState) : Except PyErr (List JItem) :=
  match st with
  | .missing => .ok []
  | .badJson => .ok []
  | .nondict => .error .attrError
  | .obj d =>
    match d.competitors with
    | .absent => .ok []
    | .nonArr => .error .typeError
    | .arr items => .ok items

/-- `CompetitorAnalyzer._get_manual_competitors`: manual dicts from
manual_competitors.json (primary) and competitor_analysis.json
(fallback, `source == "manual"` only), deduplicated by id in insertion
order, manual file winning. -/
def getManualCompetitors (manual analysis : FileState) :
    Except PyErr (List Competitor) :=
  match readCompetitorsForManual manual with
  | .error e => .error e
  | .ok items1 =>
    match readCompetitorsForManual analysis with
    | .error e => .error e
    | .ok items2 =>
      .ok ((analysisPass items2 (manualPass items1 [])).map (fun kv => kv.2))

/-- Ids (`c.get("id")`) of the dict items of a competitors array, as the
`existing_ids` set comprehension collects them; non-dict items are
filtered by `isinstance`. -/
def idsOfItems (items : List JItem) : List (Option String) :=
  items.filterMap (fun it =>
    match it with
    | .jobj c => some c.id
    | .jother => none)

/-- `CompetitorAnalyzer._merge_manual_competitors`: with a non-empty
manual list, append every manual competitor whose id is not already
present, then write the document back atomically.  An unreadable file
returns unchanged (errors caught); a non-object document or a non-array
competitors value raises outside the try block.  With an absent
competitors key, `setdefault` creates the array. -/
def mergeManualCompetitors (manualCompetitors : List Competitor)
    (analysis : FileState) : Except PyErr FileState :=
  if manualCompetitors.isEmpty then
    .ok analysis
  else
    match analysis with
    | .missing => .ok analysis
    | .badJson => .ok analysis
    | .nondict => .error .attrError
    | .obj d =>
      match d.competitors with
      | .nonArr => .error .typeError
      | .absent => .ok (.obj ⟨.arr (manualCompetitors.map .jobj)⟩)
      | .arr items =>
        .ok (.obj ⟨.arr (items ++ (manualCompetitors.filter
          (fun c => !((idsOfItems items).contains c.id))).map .jobj)⟩)

/-- Whether `_validate_analysis` can walk one competitors item without
raising: it must be a dict (`c.get` on a non-dict raises AttributeError)
whose pain_points value, when present, is an array (`len` on a non-array
raises TypeError). -/
def itemValidateOk (it : JItem) : Bool :=
  match it with
  | .jobj c =>
    match c.painPoints with
    | .nonArr => false
    | _ => true
  | .jother => false

/-- `CompetitorAnalyzer._validate_analysis`: parse the analysis file and
return the success result when the "competitors" key is present, `none`
otherwise.  Only `json.JSONDecodeError` is caught there: a missing file
raises OSError, a non-array competitors value raises TypeError at `len`,
and a bad item raises while summing pain points.  A non-object top level
makes the `"competitors" in data` membership test false. -/
def validateAnalysis (analysis : FileState) :
    Except PyErr (Option RoadmapPhaseResult) :=
  match analysis with
  | .missing => .error .osError
  | .badJson => .ok none
  | .nondict => .ok none
  | .obj d =>
    match d.competitors with
    | .absent => .ok none
    | .nonArr => .error .typeError
    | .arr items =>
      if items.all itemValidateOk then
        .ok (some ⟨"competitor_analysis", true, [analysisPath], [], 0⟩)
      else
        match items.find? (fun it => !(itemValidateOk it)) with
        | some (.jobj _) => .error .typeError
        | _ => .error .attrError

/-- The document written by `_create_disabled_analysis_file` and
`_create_error_analysis_file`, reduced to the competitors key both write
as an empty array (the other fields play no role in any claim). -/
def emptyAnalysisDoc : FileState := .obj ⟨.arr []⟩

/-- The injected agent executor (`AgentExecutor.run_agent` plus the
filesystem effect of the agent's run): from the attempt index and the
current analysis-file state to the success flag and the file state the
run leaves behind. -/
def AgentFun : Type := Nat → FileState → Bool × FileState

/-- Error message recorded for 0-based attempt `i`. -/
def attemptMsg (i : Nat) (s : String) : String :=
  "Attempt " ++ toString (i + 1) ++ ": " ++ s

/-- The retry loop of `CompetitorAnalyzer.analyze` (`for attempt in
range(MAX_RETRIES)`), by remaining fuel, carrying the accumulated error
messages.  On validation success the manual competitors are merged and
the validation result returned; when the loop ends the error analysis
file is written, manual competitors merged back, and a success result
carrying the errors returned.  The source guards the merge calls with
`if manual_competitors:`, which coincides with the merge function's own
empty-list early return. -/
def analyzeAttempts (agent : AgentFun) (manual : List Competitor) :
    Nat → Nat → List String → World →
    Except PyErr (World × RoadmapPhaseResult)
  | _, 0, errors, w =>
    match mergeManualCompetitors manual emptyAnalysisDoc with
    | .error e => .error e
    | .ok f =>
      .ok ({ w with analysisFile := f },
        ⟨"competitor_analysis", true, [analysisPath], errors, MAX_RETRIES⟩)
  | attempt, remaining + 1, errors, w =>
    if (agent attempt w.analysisFile).1 &&
        !((agent attempt w.analysisFile).2 == FileState.missing) then
      match validateAnalysis (agent attempt w.analysisFile).2 with
      | .error e => .error e
      | .ok (some res) =>
        match mergeManualCompetitors manual
            (agent attempt w.analysisFile).2 with
        | .error e => .error e
        | .ok f => .ok ({ w with analysisFile := f }, res)
      | .ok none =>
        analyzeAttempts agent manual (attempt + 1) remaining
          (errors ++ [attemptMsg attempt "Validation failed"])
          { w with analysisFile := (agent attempt w.analysisFile).2 }
    else
      analyzeAttempts agent manual (attempt + 1) remaining
        (errors ++
          [attemptMsg attempt "Agent did not create competitor analysis file"])
        { w with analysisFile := (agent attempt w.analysisFile).2 }

/-- `CompetitorAnalyzer.analyze` as a pure state-passing function over
the world, the injected agent, and the `refresh` and `enabled` flags:
disabled runs preserve manual competitors, write the disabled document
and merge them back; an existing analysis file without `refresh` returns
immediately; a missing discovery file writes the error document; else
the retry loop runs.  Uncaught Python exceptions surface as
`Except.error`. -/
def analyze (agent : AgentFun) (refresh enabled : Bool) (w : World) :
    Except PyErr (World × RoadmapPhaseResult) :=
  if !enabled then
    match getManualCompetitors w.manualFile w.analysisFile with
    | .error e => .error e
    | .ok manual =>
      match mergeManualCompetitors manual emptyAnalysisDoc with
      | .error e => .error e
      | .ok f =>
        .ok ({ w with analysisFile := f },
          ⟨"competitor_analysis", true, [analysisPath], [], 0⟩)
  else if !(w.analysisFile == FileState.missing) && !refresh then
    .ok (w, ⟨"competitor_analysis", true, [analysisPath], [], 0⟩)
  else
    match getManualCompetitors w.manualFile w.analysisFile with
    | .error e => .error e
    | .ok manual =>
      if !w.discoveryExists then
        match mergeManualCompetitors manual emptyAnalysisDoc with
        | .error e => .error e
        | .ok f =>
          .ok ({ w with analysisFile := f },
            ⟨"competitor_analysis", true, [analysisPath],
              ["Discovery file not found"], 0⟩)
      else
        analyzeAttempts agent manual 0 MAX_RETRIES [] w

end Roadmap

namespace Roadmap

example :
    analyze (fun _ s => (false, s)) false true
      { analysisFile := .missing, manualFile := .missing,
        discoveryExists := true } =
    .ok ({ analysisFile := emptyAnalysisDoc, manualFile := .missing,
           discoveryExists := true },
      ⟨"competitor_analysis", true, [analysisPath],
        ["Attempt 1: Agent did not create competitor analysis file",
         "Attempt 2: Agent did not create competitor analysis file",
         "Attempt 3: Agent did not create competitor analysis file"],
        MAX_RETRIES⟩) := rfl

/-- The file parses to an object whose competitors value, when present,
is an array, so reading it in `_get_manual_competitors` or
`_merge_manual_competitors` raises nothing. -/
def fileReadSafe : FileState → Bool
  | .missing => true
  | .badJson => true
  | .nondict => false
  | .obj d =>
    match d.competitors with
    | .nonArr => false
    | _ => true

/-- `_validate_analysis` on this file raises nothing (whether or not it
validates successfully); a missing file never reaches validation because
of the `analysis_file.exists()` guard. -/
def fileValidateSafe : FileState → Bool
  | .missing => true
  | .badJson => true
  | .nondict => true
  | .obj d =>
    match d.competitors with
    | .absent => true
    | .nonArr => false
    | .arr items => items.all itemValidateOk

theorem readCompetitors_ok {st : FileState} (h : fileReadSafe st = true) :
    ∃ items, readCompetitorsForManual st = .ok items := by
  cases st with
  | missing => exact ⟨[], rfl⟩
  | badJson => exact ⟨[], rfl⟩
  | nondict => cases h
  | obj d =>
    obtain ⟨cf⟩ := d
    cases cf with
    | absent => exact ⟨[], rfl⟩
    | nonArr => cases h
    | arr items => exact ⟨items, rfl⟩

theorem getManual_ok {m a : FileState} (hm : fileReadSafe m = true)
    (ha : fileReadSafe a = true) :
    ∃ l, getManualCompetitors m a = .ok l := by
  obtain ⟨i1, h1⟩ := readCompetitors_ok hm
  obtain ⟨i2, h2⟩ := readCompetitors_ok ha
  refine ⟨(analysisPass i2 (manualPass i1 [])).map (fun kv => kv.2), ?_⟩
  unfold getManualCompetitors
  rw [h1, h2]

theorem merge_ok_on_arr (manual : List Competitor) (items : List JItem) :
    mergeManualCompetitors manual (.obj ⟨.arr items⟩) =
      .ok (.obj ⟨.arr (items ++ (manual.filter
        (fun c => !((idsOfItems items).contains c.id))).map .jobj)⟩) := by
  unfold mergeManualCompetitors
  by_cases hempty : manual.isEmpty = true
  · rw [if_pos hempty]
    have hm : manual = [] := List.isEmpty_iff.mp hempty
    subst hm
    simp
  · rw [if_neg hempty]

theorem merge_ok_on_empty (manual : List Competitor) :
    mergeManualCompetitors manual emptyAnalysisDoc =
      .ok (.obj ⟨.arr ((manual.filter
        (fun c => !(([] : List (Option String)).contains c.id))).map .jobj)⟩) := by
  have h := merge_ok_on_arr manual []
  simpa [emptyAnalysisDoc, idsOfItems] using h

theorem validate_ok {st : FileState} (h : fileValidateSafe st = true)
    (hmiss : st ≠ .missing) :
    ∃ r, validateAnalysis st = .ok r := by
  cases st with
  | missing => exact absurd rfl hmiss
  | badJson => exact ⟨none, rfl⟩
  | nondict => exact ⟨none, rfl⟩
  | obj d =>
    obtain ⟨cf⟩ := d
    cases cf with
    | absent => exact ⟨none, rfl⟩
    | nonArr => cases h
    | arr items =>
      have hall : items.all itemValidateOk = true := by
        simpa [fileValidateSafe] using h
      exact ⟨some ⟨"competitor_analysis", true, [analysisPath], [], 0⟩, by
        simp [validateAnalysis, hall]⟩

theorem validate_some_inv {st : FileState} {res : RoadmapPhaseResult}
    (h : validateAnalysis st = .ok (some res)) :
    res.success = true ∧ ∃ items, st = .obj ⟨.arr items⟩ := by
  cases st with
  | missing => cases h
  | badJson => simp [validateAnalysis] at h
  | nondict => simp [validateAnalysis] at h
  | obj d =>
    obtain ⟨cf⟩ := d
    cases cf with
    | absent => simp [validateAnalysis] at h
    | nonArr => cases h
    | arr items =>
      refine ⟨?_, items, rfl⟩
      simp only [validateAnalysis] at h
      split at h
      · simp only [Except.ok.injEq, Option.some.injEq] at h
        rw [← h]
      · split at h <;> cases h

theorem analyzeAttempts_ok (agent : AgentFun) (manual : List Competitor)
    (hagent : ∀ i s, fileValidateSafe (agent i s).2 = true) :
    ∀ fuel attempt errors w, ∃ w2 res,
      analyzeAttempts agent manual attempt fuel errors w = .ok (w2, res) ∧
      res.success = true := by
  intro fuel
  induction fuel with
  | zero =>
    intro attempt errors w
    unfold analyzeAttempts
    rw [merge_ok_on_empty manual]
    exact ⟨_, _, rfl, rfl⟩
  | succ n ih =>
    intro attempt errors w
    unfold analyzeAttempts
    cases hcond : ((agent attempt w.analysisFile).1 &&
        !((agent attempt w.analysisFile).2 == FileState.missing)) with
    | false =>
      rw [if_neg (by simp)]
      exact ih _ _ _
    | true =>
      rw [if_pos rfl]
      have hvs := hagent attempt w.analysisFile
      have hmiss : (agent attempt w.analysisFile).2 ≠ FileState.missing := by
        intro hm
        rw [hm] at hcond
        simp at hcond
      obtain ⟨r, hr⟩ := validate_ok hvs hmiss
      rw [hr]
      cases r with
      | none => exact ih _ _ _
      | some res =>
        obtain ⟨hsucc, items, hst⟩ := validate_some_inv hr
        rw [hst, merge_ok_on_arr manual items]
        exact ⟨_, _, rfl, hsucc⟩

/-- World for the C9 counterexample: analysis disabled, while
manual_competitors.json holds a JSON object whose `competitors` value
is not a list (say `{"competitors": 42}`). -/
def c9world : World :=
  { analysisFile := .missing
    manualFile := .obj ⟨.nonArr⟩
    discoveryExists := true }

/-- C9 counterexample: in one of the claim's own input states (analysis
disabled), `analyze` raises an uncaught TypeError instead of returning
any `RoadmapPhaseResult` — `_get_manual_competitors` iterates
`data.get("competitors", [])` inside a try block that catches only
`json.JSONDecodeError` and `OSError`. -/
theorem claim_c9_counterexample :
    analyze (fun _ s => (false, s)) false false c9world =
      Except.error PyErr.typeError := rfl

/-- C9 (amended): provided the manual-competitors file and the initial
analysis file parse to JSON objects whose `competitors` value, when
present, is an array, and every analysis file the agent leaves behind is
safe to validate (an object whose `competitors` array, when the key is
present, holds only dicts with array `pain_points`), `analyze` returns a
`RoadmapPhaseResult` with `success = true` on every input — analysis
disabled, discovery file missing, or all `MAX_RETRIES = 3` attempts
failing or failing validation — reporting failure only through the
result's errors list, never through `success = False` or an
exception. -/
theorem claim_c9_success_graceful (agent : AgentFun)
    (refresh enabled : Bool) (w : World)
    (hman : fileReadSafe w.manualFile = true)
    (hana : fileReadSafe w.analysisFile = true)
    (hagent : ∀ i s, fileValidateSafe (agent i s).2 = true) :
    ∃ w2 res, analyze agent refresh enabled w = .ok (w2, res) ∧
      res.success = true := by
  obtain ⟨manual, hmanual⟩ := getManual_ok hman hana
  unfold analyze
  cases henb : enabled with
  | false =>
    rw [if_pos (by decide)]
    simp only [hmanual, merge_ok_on_empty]
    exact ⟨_, _, rfl, rfl⟩
  | true =>
    rw [if_neg (by simp)]
    cases hcond : (!(w.analysisFile == FileState.missing) && !refresh) with
    | true =>
      rw [if_pos rfl]
      exact ⟨_, _, rfl, rfl⟩
    | false =>
      rw [if_neg (by simp)]
      simp only [hmanual]
      cases hd : w.discoveryExists with
      | false =>
        rw [if_pos (by decide)]
        simp only [merge_ok_on_empty]
        exact ⟨_, _, rfl, rfl⟩
      | true =>
        rw [if_neg (by simp)]
        exact analyzeAttempts_ok agent manual hagent _ _ _ _

/-- World for the C9 witness: everything well formed, agent always
failing, so the graceful-degradation theorem applies concretely. -/
def c9okWorld : World :=
  { analysisFile := .missing
    manualFile := .obj ⟨.arr [.jobj ⟨some "m1", some "manual", .absent, 0⟩]⟩
    discoveryExists := true }

theorem claim_c9_witness :
    ∃ w2 res,
      analyze (fun _ _ => (false, FileState.missing)) false true c9okWorld =
        .ok (w2, res) ∧ res.success = true :=
  claim_c9_success_graceful (fun _ _ => (false, FileState.missing)) false true
    c9okWorld (by decide) (by decide) (fun _ _ => by simp [fileValidateSafe])

theorem contains_id_iff {l : List (Option String)} {x : Option String} :
    l.contains x = true ↔ x ∈ l := List.elem_iff

theorem truthy_id_some {c : Competitor} (h : truthyId c = true) :
    c.id = some (idOf c) := by
  unfold truthyId at h
  cases hid : c.id with
  | none => rw [hid] at h; cases h
  | some s => simp [idOf, hid]

theorem upsert_mem {acc : List (String × Competitor)} {k : String}
    {v : Competitor} {p : String × Competitor} (h : p ∈ upsert acc k v) :
    p ∈ acc ∨ p = (k, v) := by
  unfold upsert at h
  split at h
  · obtain ⟨q, hq, hfq⟩ := List.mem_map.mp h
    by_cases hk : (q.1 == k) = true
    · rw [if_pos hk] at hfq
      exact Or.inr hfq.symm
    · rw [if_neg hk] at hfq
      exact Or.inl (hfq ▸ hq)
  · rcases List.mem_append.mp h with h2 | h2
    · exact Or.inl h2
    · exact Or.inr (List.mem_singleton.mp h2)

theorem upsert_any_self (acc : List (String × Competitor)) (k : String)
    (v : Competitor) :
    (upsert acc k v).any (fun kv => kv.1 == k) = true := by
  unfold upsert
  split
  · rename_i hany
    obtain ⟨q, hq, hqk⟩ := List.any_eq_true.mp hany
    apply List.any_eq_true.mpr
    exact ⟨(k, v), List.mem_map.mpr ⟨q, hq, by rw [if_pos hqk]⟩, by simp⟩
  · apply List.any_eq_true.mpr
    exact ⟨(k, v), by simp, by simp⟩

theorem upsert_any_mono {acc : List (String × Competitor)} {k2 : String}
    (k : String) (v : Competitor)
    (h : acc.any (fun kv => kv.1 == k2) = true) :
    (upsert acc k v).any (fun kv => kv.1 == k2) = true := by
  unfold upsert
  obtain ⟨q, hq, hqk2⟩ := List.any_eq_true.mp h
  split
  · apply List.any_eq_true.mpr
    by_cases hk : (q.1 == k) = true
    · refine ⟨(k, v), List.mem_map.mpr ⟨q, hq, by rw [if_pos hk]⟩, ?_⟩
      show (k == k2) = true
      have h1 : q.1 = k := by simpa using hk
      rw [← h1]
      exact hqk2
    · exact ⟨q, List.mem_map.mpr ⟨q, hq, by rw [if_neg hk]⟩, hqk2⟩
  · apply List.any_eq_true.mpr
    exact ⟨q, List.mem_append_left _ hq, hqk2⟩

theorem manualPass_cons (it : JItem) (items : List JItem)
    (acc : List (String × Competitor)) :
    manualPass (it :: items) acc =
      manualPass items (match it with
        | .jobj c => if truthyId c then upsert acc (idOf c) c else acc
        | .jother => acc) := rfl

theorem analysisPass_cons (it : JItem) (items : List JItem)
    (acc : List (String × Competitor)) :
    analysisPass (it :: items) acc =
      analysisPass items (match it with
        | .jobj c =>
          if c.source == some "manual" && truthyId c &&
              !(acc.any (fun kv => kv.1 == idOf c)) then
            acc ++ [(idOf c, c)]
          else acc
        | .jother => acc) := rfl

theorem manualPass_mem {items : List JItem}
    {acc : List (String × Competitor)} {p : String × Competitor}
    (h : p ∈ manualPass items acc) :
    p ∈ acc ∨ (JItem.jobj p.2 ∈ items ∧ truthyId p.2 = true ∧
      p.1 = idOf p.2) := by
  induction items generalizing acc with
  | nil => exact Or.inl h
  | cons it items ih =>
    rw [manualPass_cons] at h
    rcases ih h with h2 | h2
    · cases it with
      | jother => exact Or.inl h2
      | jobj c =>
        replace h2 : p ∈ (if truthyId c = true then upsert acc (idOf c) c
          else acc) := h2
        by_cases ht : truthyId c = true
        · rw [if_pos ht] at h2
          rcases upsert_mem h2 with h3 | h3
          · exact Or.inl h3
          · right
            rw [h3]
            exact ⟨List.mem_cons_self _ _, ht, rfl⟩
        · rw [if_neg ht] at h2
          exact Or.inl h2
    · exact Or.inr ⟨List.mem_cons_of_mem _ h2.1, h2.2⟩

theorem manualPass_any_mono {items : List JItem}
    {acc : List (String × Competitor)} {k : String}
    (h : acc.any (fun kv => kv.1 == k) = true) :
    (manualPass items acc).any (fun kv => kv.1 == k) = true := by
  induction items generalizing acc with
  | nil => exact h
  | cons it items ih =>
    rw [manualPass_cons]
    apply ih
    cases it with
    | jother => exact h
    | jobj c =>
      show ((if truthyId c = true then upsert acc (idOf c) c else acc).any
        (fun kv => kv.1 == k)) = true
      split
      · exact upsert_any_mono _ _ h
      · exact h

theorem manualPass_any_of_mem {items : List JItem} {c : Competitor}
    (acc : List (String × Competitor))
    (hmem : JItem.jobj c ∈ items) (ht : truthyId c = true) :
    (manualPass items acc).any (fun kv => kv.1 == idOf c) = true := by
  induction items generalizing acc with
  | nil => cases hmem
  | cons it items ih =>
    rw [manualPass_cons]
    rcases List.mem_cons.mp hmem with heq | h2
    · rcases heq.symm with rfl
      apply manualPass_any_mono
      show ((if truthyId c = true then upsert acc (idOf c) c else acc).any
        (fun kv => kv.1 == idOf c)) = true
      rw [if_pos ht]
      exact upsert_any_self acc (idOf c) c
    · exact ih _ h2

theorem analysisPass_any_mono {items : List JItem}
    {acc : List (String × Competitor)} {k : String}
    (h : acc.any (fun kv => kv.1 == k) = true) :
    (analysisPass items acc).any (fun kv => kv.1 == k) = true := by
  induction items generalizing acc with
  | nil => exact h
  | cons it items ih =>
    rw [analysisPass_cons]
    apply ih
    cases it with
    | jother => exact h
    | jobj c =>
      show ((if (c.source == some "manual" && truthyId c &&
          !(acc.any (fun kv => kv.1 == idOf c))) = true then
          acc ++ [(idOf c, c)] else acc).any (fun kv => kv.1 == k)) = true
      split
      · simp [List.any_append, h]
      · exact h

theorem analysisPass_mem {items : List JItem}
    {acc : List (String × Competitor)} {p : String × Competitor}
    (h : p ∈ analysisPass items acc) :
    p ∈ acc ∨ (JItem.jobj p.2 ∈ items ∧
      (p.2.source == some "manual") = true ∧ truthyId p.2 = true ∧
      p.1 = idOf p.2 ∧ acc.any (fun kv => kv.1 == p.1) = false) := by
  induction items generalizing acc with
  | nil => exact Or.inl h
  | cons it items ih =>
    rw [analysisPass_cons] at h
    rcases ih h with h2 | h2
    · cases it with
      | jother => exact Or.inl h2
      | jobj c =>
        replace h2 : p ∈ (if (c.source == some "manual" && truthyId c &&
            !(acc.any (fun kv => kv.1 == idOf c))) = true then
            acc ++ [(idOf c, c)] else acc) := h2
        by_cases hcnd : (c.source == some "manual" && truthyId c &&
            !(acc.any (fun kv => kv.1 == idOf c))) = true
        · rw [if_pos hcnd] at h2
          rcases List.mem_append.mp h2 with h3 | h3
          · exact Or.inl h3
          · right
            have h4 := List.mem_singleton.mp h3
            subst h4
            simp only [Bool.and_eq_true, Bool.not_eq_true'] at hcnd
            exact ⟨List.mem_cons_self _ _, hcnd.1.1, hcnd.1.2, rfl, hcnd.2⟩
        · rw [if_neg hcnd] at h2
          exact Or.inl h2
    · right
      refine ⟨List.mem_cons_of_mem _ h2.1, h2.2.1, h2.2.2.1, h2.2.2.2.1, ?_⟩
      have hstep := h2.2.2.2.2
      cases it with
      | jother => exact hstep
      | jobj c =>
        revert hstep
        show ((if (c.source == some "manual" && truthyId c &&
            !(acc.any (fun kv => kv.1 == idOf c))) = true then
            acc ++ [(idOf c, c)] else acc).any (fun kv => kv.1 == p.1)) =
            false →
          acc.any (fun kv => kv.1 == p.1) = false
        split
        · intro hf
          rw [List.any_append] at hf
          exact (Bool.or_eq_false_iff.mp hf).1
        · exact id

theorem analysisPass_any_of_mem {items : List JItem} {c : Competitor}
    (acc : List (String × Competitor)) (hmem : JItem.jobj c ∈ items)
    (hsrc : (c.source == some "manual") = true) (ht : truthyId c = true) :
    (analysisPass items acc).any (fun kv => kv.1 == idOf c) = true := by
  induction items generalizing acc with
  | nil => cases hmem
  | cons it items ih =>
    rw [analysisPass_cons]
    rcases List.mem_cons.mp hmem with heq | h2
    · rcases heq.symm with rfl
      apply analysisPass_any_mono
      show ((if (c.source == some "manual" && truthyId c &&
          !(acc.any (fun kv => kv.1 == idOf c))) = true then
          acc ++ [(idOf c, c)] else acc).any (fun kv => kv.1 == idOf c)) = true
      by_cases hany : acc.any (fun kv => kv.1 == idOf c) = true
      · rw [if_neg (by simp [hany])]
        exact hany
      · have hany2 : acc.any (fun kv => kv.1 == idOf c) = false := by
          cases hx : acc.any (fun kv => kv.1 == idOf c)
          · rfl
          · exact absurd hx hany
        rw [if_pos (by simp [hsrc, ht, hany2])]
        simp [List.any_append]
    · exact ih _ h2

theorem getManual_entry_wf {items1 items2 : List JItem}
    {p : String × Competitor}
    (h : p ∈ analysisPass items2 (manualPass items1 [])) :
    truthyId p.2 = true ∧ p.1 = idOf p.2 := by
  rcases analysisPass_mem h with h2 | h2
  · rcases manualPass_mem h2 with h3 | h3
    · cases h3
    · exact ⟨h3.2.1, h3.2.2⟩
  · exact ⟨h2.2.2.1, h2.2.2.2.1⟩

theorem getManual_inv {m a : FileState} {manual : List Competitor}
    (h : getManualCompetitors m a = .ok manual) :
    ∃ items1 items2,
      readCompetitorsForManual m = .ok items1 ∧
      readCompetitorsForManual a = .ok items2 ∧
      manual = (analysisPass items2 (manualPass items1 [])).map
        (fun kv => kv.2) := by
  unfold getManualCompetitors at h
  cases h1 : readCompetitorsForManual m with
  | error e =>
    rw [h1] at h
    cases h
  | ok items1 =>
    cases h2 : readCompetitorsForManual a with
    | error e =>
      simp only [h1, h2] at h
      cases h
    | ok items2 =>
      simp only [h1, h2, Except.ok.injEq] at h
      exact ⟨items1, items2, rfl, rfl, h.symm⟩

/-- Items of a file's competitors array, empty when the file is not an
object with an array. -/
def itemsOf (st : FileState) : List JItem :=
  match st with
  | .obj ⟨.arr items⟩ => items
  | _ => []

theorem itemsOf_of_read {st : FileState} {items : List JItem}
    (h : readCompetitorsForManual st = .ok items) : itemsOf st = items := by
  cases st with
  | missing =>
    simp only [readCompetitorsForManual, Except.ok.injEq] at h
    simp [itemsOf, ← h]
  | badJson =>
    simp only [readCompetitorsForManual, Except.ok.injEq] at h
    simp [itemsOf, ← h]
  | nondict => cases h
  | obj d =>
    obtain ⟨cf⟩ := d
    cases cf with
    | absent =>
      simp only [readCompetitorsForManual, Except.ok.injEq] at h
      simp [itemsOf, ← h]
    | nonArr => cases h
    | arr its =>
      simp only [readCompetitorsForManual, Except.ok.injEq] at h
      simp [itemsOf, h]

theorem analyzeAttempts_final (agent : AgentFun) (manual : List Competitor) :
    ∀ fuel attempt errors w w2 res,
      analyzeAttempts agent manual attempt fuel errors w = .ok (w2, res) →
      ∃ g, mergeManualCompetitors manual (.obj ⟨.arr g⟩) =
        .ok w2.analysisFile := by
  intro fuel
  induction fuel with
  | zero =>
    intro attempt errors w w2 res h
    unfold analyzeAttempts at h
    rw [merge_ok_on_empty manual] at h
    simp only [Except.ok.injEq, Prod.mk.injEq] at h
    refine ⟨[], ?_⟩
    rw [merge_ok_on_arr manual [], ← h.1]
    simp [idsOfItems]
  | succ n ih =>
    intro attempt errors w w2 res h
    unfold analyzeAttempts at h
    by_cases hcond : ((agent attempt w.analysisFile).1 &&
        !((agent attempt w.analysisFile).2 == FileState.missing)) = true
    · rw [if_pos hcond] at h
      cases hv : validateAnalysis (agent attempt w.analysisFile).2 with
      | error e =>
        rw [hv] at h
        cases h
      | ok r =>
        cases r with
        | none =>
          rw [hv] at h
          exact ih _ _ _ _ _ h
        | some res2 =>
          obtain ⟨hsucc, items, hst⟩ := validate_some_inv hv
          rw [hv] at h
          rw [hst] at h
          rw [merge_ok_on_arr manual items] at h
          simp only [Except.ok.injEq, Prod.mk.injEq] at h
          refine ⟨items, ?_⟩
          rw [merge_ok_on_arr manual items, ← h.1]
    · rw [if_neg hcond] at h
      exact ih _ _ _ _ _ h

theorem analyze_final (agent : AgentFun) (refresh enabled : Bool)
    (w w2 : World) (res : RoadmapPhaseResult) (manual : List Competitor)
    (hga : getManualCompetitors w.manualFile w.analysisFile = .ok manual)
    (hok : analyze agent refresh enabled w = .ok (w2, res))
    (hrw : (enabled && (!(w.analysisFile == FileState.missing) &&
      !refresh)) = false) :
    ∃ g, mergeManualCompetitors manual (.obj ⟨.arr g⟩) =
      .ok w2.analysisFile := by
  unfold analyze at hok
  cases henb : enabled with
  | false =>
    rw [if_pos (by simp [henb])] at hok
    simp only [hga, merge_ok_on_empty] at hok
    simp only [Except.ok.injEq, Prod.mk.injEq] at hok
    refine ⟨[], ?_⟩
    rw [merge_ok_on_arr manual [], ← hok.1]
    simp [idsOfItems]
  | true =>
    rw [if_neg (by simp [henb])] at hok
    have hc2 : (!(w.analysisFile == FileState.missing) && !refresh) = false := by
      rw [henb] at hrw
      simpa using hrw
    rw [if_neg (by simp [hc2])] at hok
    simp only [hga] at hok
    by_cases hd : w.discoveryExists = true
    · rw [if_neg (by simp [hd])] at hok
      exact analyzeAttempts_final agent manual _ _ _ _ _ _ hok
    · have hd2 : w.discoveryExists = false := by
        cases hx : w.discoveryExists
        · rfl
        · exact absurd hx hd
      rw [if_pos (by simp [hd2])] at hok
      simp only [merge_ok_on_empty] at hok
      simp only [Except.ok.injEq, Prod.mk.injEq] at hok
      refine ⟨[], ?_⟩
      rw [merge_ok_on_arr manual [], ← hok.1]
      simp [idsOfItems]

theorem idsOfItems_append (l1 l2 : List JItem) :
    idsOfItems (l1 ++ l2) = idsOfItems l1 ++ idsOfItems l2 := by
  unfold idsOfItems
  rw [List.filterMap_append]

theorem idsOfItems_map_jobj (l : List Competitor) :
    idsOfItems (l.map .jobj) = l.map (fun c => c.id) := by
  induction l with
  | nil => rfl
  | cons c l ih =>
    show c.id :: idsOfItems (l.map .jobj) = c.id :: l.map (fun c => c.id)
    rw [ih]

theorem manual_entry_id_present {items1 items2 : List JItem}
    {manual : List Competitor} {ids : List (Option String)} {c' : Competitor}
    (hmap : manual = (analysisPass items2 (manualPass items1 [])).map
      (fun kv => kv.2))
    (hpres : ∀ c ∈ manual, c.id ∈ ids)
    (hany : (analysisPass items2 (manualPass items1 [])).any
      (fun kv => kv.1 == idOf c') = true)
    (ht : truthyId c' = true) :
    c'.id ∈ ids := by
  obtain ⟨p, hp, hpk⟩ := List.any_eq_true.mp hany
  have hwfp := getManual_entry_wf hp
  have hpmem : p.2 ∈ manual := by
    rw [hmap]
    exact List.mem_map.mpr ⟨p, hp, rfl⟩
  have hid : p.2.id = c'.id := by
    rw [truthy_id_some hwfp.1, truthy_id_some ht, ← hwfp.2]
    have h1 : p.1 = idOf c' := by simpa using hpk
    rw [h1]
  rw [← hid]
  exact hpres p.2 hpmem

theorem manual_file_wins {items1 items2 : List JItem}
    {manual : List Competitor} {c : Competitor}
    (hmap : manual = (analysisPass items2 (manualPass items1 [])).map
      (fun kv => kv.2))
    (hc : c ∈ manual) (c' : Competitor) (hc' : JItem.jobj c' ∈ items1)
    (ht' : truthyId c' = true) (hideq : idOf c' = idOf c) :
    JItem.jobj c ∈ items1 := by
  rw [hmap] at hc
  obtain ⟨p, hp, hpc⟩ := List.mem_map.mp hc
  rcases analysisPass_mem hp with h2 | h2
  · rcases manualPass_mem h2 with h3 | h3
    · cases h3
    · rw [← hpc]
      exact h3.1
  · exfalso
    have hany : (manualPass items1 []).any
        (fun kv => kv.1 == idOf c') = true :=
      manualPass_any_of_mem [] hc' ht'
    have hp1 : p.1 = idOf c' := by
      rw [h2.2.2.2.1, hpc, ← hideq]
    rw [← hp1] at hany
    rw [h2.2.2.2.2] at hany
    cases hany

/-- C10: on every run of `analyze` that rewrites the analysis file (the
early-exit path — enabled with an existing file and no refresh — is
excluded), the final analysis file is the newly generated competitors
array `g` extended by exactly those preserved manual competitors whose
id is absent from `g`.  Consequently: every id readable beforehand from
manual_competitors.json (truthy id) or from the prior analysis file with
source `"manual"` is present in the final file; every preserved manual
entry is present by id, and verbatim when its id is not in `g`; an id
already present in the generated file keeps its exact multiplicity (no
duplication); and whenever both source files carried the same id, the
preserved entry is the one from manual_competitors.json. -/
theorem claim_c10_manual_competitors_preserved (agent : AgentFun)
    (refresh enabled : Bool) (w w2 : World) (res : RoadmapPhaseResult)
    (manual : List Competitor)
    (hga : getManualCompetitors w.manualFile w.analysisFile = .ok manual)
    (hok : analyze agent refresh enabled w = .ok (w2, res))
    (hrw : (enabled && (!(w.analysisFile == FileState.missing) &&
      !refresh)) = false) :
    ∃ g,
      w2.analysisFile = .obj ⟨.arr (g ++ (manual.filter
        (fun c => !((idsOfItems g).contains c.id))).map JItem.jobj)⟩ ∧
      (∀ c ∈ manual, c.id ∈ idsOfItems (itemsOf w2.analysisFile)) ∧
      (∀ c ∈ manual, (idsOfItems g).contains c.id = false →
        JItem.jobj c ∈ itemsOf w2.analysisFile) ∧
      (∀ i ∈ idsOfItems g, (idsOfItems (itemsOf w2.analysisFile)).count i =
        (idsOfItems g).count i) ∧
      (∀ c', JItem.jobj c' ∈ itemsOf w.manualFile → truthyId c' = true →
        c'.id ∈ idsOfItems (itemsOf w2.analysisFile)) ∧
      (∀ c', JItem.jobj c' ∈ itemsOf w.analysisFile →
        (c'.source == some "manual") = true → truthyId c' = true →
        c'.id ∈ idsOfItems (itemsOf w2.analysisFile)) ∧
      (∀ c ∈ manual, ∀ c', JItem.jobj c' ∈ itemsOf w.manualFile →
        truthyId c' = true → idOf c' = idOf c →
        JItem.jobj c ∈ itemsOf w.manualFile) := by
  obtain ⟨g, hmerge⟩ :=
    analyze_final agent refresh enabled w w2 res manual hga hok hrw
  rw [merge_ok_on_arr manual g] at hmerge
  have hfile : w2.analysisFile = .obj ⟨.arr (g ++ (manual.filter
      (fun c => !((idsOfItems g).contains c.id))).map JItem.jobj)⟩ :=
    (Except.ok.inj hmerge).symm
  have hitems : itemsOf w2.analysisFile = g ++ (manual.filter
      (fun c => !((idsOfItems g).contains c.id))).map JItem.jobj := by
    rw [hfile]
    rfl
  obtain ⟨items1, items2, hr1, hr2, hmap⟩ := getManual_inv hga
  have hm1 : itemsOf w.manualFile = items1 := itemsOf_of_read hr1
  have hm2 : itemsOf w.analysisFile = items2 := itemsOf_of_read hr2
  have hpresence : ∀ c ∈ manual,
      c.id ∈ idsOfItems (itemsOf w2.analysisFile) := by
    intro c hc
    rw [hitems, idsOfItems_append]
    by_cases hcont : (idsOfItems g).contains c.id = true
    · exact List.mem_append_left _ (contains_id_iff.mp hcont)
    · have hcont2 : (idsOfItems g).contains c.id = false := by
        cases hx : (idsOfItems g).contains c.id
        · rfl
        · exact absurd hx hcont
      apply List.mem_append_right
      rw [idsOfItems_map_jobj]
      exact List.mem_map.mpr
        ⟨c, List.mem_filter.mpr ⟨hc, by rw [hcont2]; rfl⟩, rfl⟩
  refine ⟨g, hfile, hpresence, ?_, ?_, ?_, ?_, ?_⟩
  · intro c hc hcont
    rw [hitems]
    exact List.mem_append_right _
      (List.mem_map.mpr ⟨c, List.mem_filter.mpr ⟨hc, by rw [hcont]; rfl⟩, rfl⟩)
  · intro i hi
    rw [hitems, idsOfItems_append, List.count_append]
    have hz : (idsOfItems ((manual.filter
        (fun c => !((idsOfItems g).contains c.id))).map JItem.jobj)).count
        i = 0 := by
      rw [idsOfItems_map_jobj]
      apply List.count_eq_zero.mpr
      intro hmem
      obtain ⟨c, hcf, hci⟩ := List.mem_map.mp hmem
      have hfc := List.mem_filter.mp hcf
      have hcont : (idsOfItems g).contains c.id = false := by
        have h2 := hfc.2
        rw [Bool.not_eq_true'] at h2
        exact h2
      rw [hci] at hcont
      rw [contains_id_iff.mpr hi] at hcont
      cases hcont
    rw [hz]
    rfl
  · intro c' hmem ht
    rw [hm1] at hmem
    exact manual_entry_id_present hmap hpresence
      (analysisPass_any_mono (manualPass_any_of_mem [] hmem ht)) ht
  · intro c' hmem hsrc ht
    rw [hm2] at hmem
    exact manual_entry_id_present hmap hpresence
      (analysisPass_any_of_mem _ hmem hsrc ht) ht
  · intro c hc c' hmem ht' hideq
    rw [hm1] at hmem ⊢
    exact manual_file_wins hmap hc c' hmem ht' hideq

/-- Concrete manual competitor for the C10 witness. -/
def c10cm : Competitor := ⟨some "m1", some "manual", .absent, 1⟩

/-- Concrete initial world for the C10 witness: analysis disabled path,
manual file carrying one competitor. -/
def c10world : World :=
  { analysisFile := .missing
    manualFile := .obj ⟨.arr [.jobj c10cm]⟩
    discoveryExists := true }

/-- The world `analyze` produces from `c10world` on the disabled path:
the disabled analysis document with the manual competitor merged in. -/
def c10finalWorld : World :=
  { analysisFile := .obj ⟨.arr [.jobj c10cm]⟩
    manualFile := .obj ⟨.arr [.jobj c10cm]⟩
    discoveryExists := true }

theorem claim_c10_witness :
    c10cm.id ∈ idsOfItems (itemsOf c10finalWorld.analysisFile) := by
  have h := claim_c10_manual_competitors_preserved (fun _ s => (false, s))
    false false c10world c10finalWorld
    ⟨"competitor_analysis", true, [analysisPath], [], 0⟩ [c10cm]
    rfl rfl rfl
  obtain ⟨g, hfile, hpres, hrest⟩ := h
  exact hpres c10cm (by decide)

end Roadmap
